import Mathlib

/-!
# Verification of the copyplop header-normalization tool

This file embeds the core of the `copyplop` repository (Go) in Lean 4 and
proves/refutes a list of specification claims about it.

Modelling conventions:

* Go strings are byte strings; we model them as Lean `String`s and implement
  every Go string primitive used by the code (`strings.Split`, `strings.Join`,
  `strings.TrimSpace`, `strings.HasPrefix`, `strings.HasSuffix`,
  `strings.Contains`, `strings.CutPrefix`, …) explicitly over the underlying
  character list, so that all reasoning happens over `List Char`.
* A configured regular expression is modelled by its compiled match predicate
  (`String → Bool`), exactly the interface `regexp.MustCompile(p).MatchString`
  provides.  Concrete configurations instantiate these predicates with
  executable functions implementing the specific regexes they use.
* Go `map[string]string` (comment styles) is modelled as an association list
  with lookup defaulting to `""` (the zero value), matching Go map indexing.
-/

namespace Copyplop

/-! ## Go string primitives, modelled over `List Char` -/

/-- Whitespace per Go's `unicode.IsSpace` restricted to the characters the
scanned files can contain (ASCII space classes plus NEL and NBSP). -/
def goIsSpace (c : Char) : Bool :=
  c = ' ' || c = '\t' || c = '\n' || c = (Char.ofNat 11) || c = (Char.ofNat 12) ||
  c = '\r' || c = (Char.ofNat 0x85) || c = (Char.ofNat 0xA0)

/-- `strings.TrimSpace` on the character list. -/
def trimL (l : List Char) : List Char :=
  ((l.dropWhile goIsSpace).reverse.dropWhile goIsSpace).reverse

/-- `strings.TrimSpace`. -/
def goTrim (s : String) : String := ⟨trimL s.data⟩

/-- Splitting a character list on a separator character
(`strings.Split(s, sep)` for a one-character separator). -/
def splitCh (sep : Char) : List Char → List (List Char)
  | [] => [[]]
  | c :: cs =>
    match splitCh sep cs with
    | [] => if c = sep then [[], []] else [[c]]
    | l :: ls => if c = sep then [] :: l :: ls else (c :: l) :: ls

/-- Joining with a separator character (`strings.Join` with `"\n"` etc.). -/
def joinCh (sep : Char) : List (List Char) → List Char
  | [] => []
  | [l] => l
  | l :: ls => l ++ sep :: joinCh sep ls

/-- `strings.Split(s, "\n")`. -/
def goSplitLines (s : String) : List String := (splitCh '\n' s.data).map String.mk

/-- `strings.Join(lines, "\n")`. -/
def goJoinLines (ls : List String) : String := ⟨joinCh '\n' (ls.map String.data)⟩

/-- `strings.HasPrefix`. -/
def goHasPrefix (s pfx : String) : Bool := pfx.data.isPrefixOf s.data

/-- `strings.HasSuffix`. -/
def goHasSuffix (s sfx : String) : Bool := sfx.data.isSuffixOf s.data

/-- Substring containment on character lists. -/
def containsL (sub : List Char) : List Char → Bool
  | [] => sub.isPrefixOf []
  | c :: t => sub.isPrefixOf (c :: t) || containsL sub t

/-- `strings.Contains` (substring containment). -/
def goContains (s sub : String) : Bool := containsL sub.data s.data

/-- `strings.CutPrefix`: `some rest` when the prefix is present. -/
def goCutPrefix (s pfx : String) : Option String :=
  if goHasPrefix s pfx then some ⟨s.data.drop pfx.data.length⟩ else none

/-- `strings.CutSuffix`: `some beforePart` when the suffix is present. -/
def goCutSuffix (s sfx : String) : Option String :=
  if goHasSuffix s sfx then some ⟨s.data.take (s.data.length - sfx.data.length)⟩ else none

/-- `strings.TrimPrefix`. -/
def goTrimPrefix (s pfx : String) : String :=
  match goCutPrefix s pfx with
  | some r => r
  | none => s

/-- `strings.TrimSuffix`. -/
def goTrimSuffix (s sfx : String) : String :=
  match goCutSuffix s sfx with
  | some r => r
  | none => s

/-- Go string concatenation (byte-level). -/
def goAppend (a b : String) : String := ⟨a.data ++ b.data⟩

/-- `strings.ReplaceAll(s, from, to)` for a one-character `from` pattern
(enough for the `strings.ReplaceAll(extKey, ".", "_")` use in the source). -/
def replaceAllCh (c r : Char) (s : String) : String :=
  ⟨s.data.map (fun x => if x = c then r else x)⟩

/-! ### Basic lemmas about the string primitives -/

theorem splitCh_ne_nil (sep : Char) (l : List Char) : splitCh sep l ≠ [] := by
  cases l with
  | nil => simp [splitCh]
  | cons c cs =>
    simp only [splitCh]
    rcases h : splitCh sep cs with _ | ⟨l', ls'⟩ <;> by_cases hc : c = sep <;> simp [hc]

theorem goSplitLines_ne_nil (s : String) : goSplitLines s ≠ [] := by
  unfold goSplitLines
  intro h
  exact splitCh_ne_nil '\n' s.data (by simpa using h)

/-- No chunk produced by `splitCh` contains the separator. -/
theorem splitCh_no_sep (sep : Char) (l : List Char) :
    ∀ x ∈ splitCh sep l, sep ∉ x := by
  induction l with
  | nil => intro x hx; simp [splitCh] at hx; simp [hx]
  | cons c cs ih =>
    intro x hx
    simp only [splitCh] at hx
    rcases h : splitCh sep cs with _ | ⟨l', ls'⟩
    · exact absurd h (splitCh_ne_nil sep cs)
    · rw [h] at hx
      by_cases hc : c = sep
      · simp [hc] at hx
        rcases hx with hx | hx | hx
        · simp [hx]
        · exact ih x (by rw [h]; simp [hx])
        · exact ih x (by rw [h]; simp [hx])
      · simp [hc] at hx
        rcases hx with hx | hx
        · subst hx
          intro hmem
          rcases List.mem_cons.mp hmem with h1 | h1
          · exact hc h1.symm
          · exact ih l' (by rw [h]; simp) h1
        · exact ih x (by rw [h]; simp [hx])

/-- Splitting a separator-free list yields a single chunk. -/
theorem splitCh_of_no_sep (sep : Char) (l : List Char) (hl : sep ∉ l) :
    splitCh sep l = [l] := by
  induction l with
  | nil => rfl
  | cons c cs ih =>
    have hc : c ≠ sep := fun h => hl (by simp [h])
    have hcs : sep ∉ cs := fun h => hl (by simp [h])
    simp only [splitCh]
    rw [ih hcs]
    simp [hc]

/-- Splitting distributes over a separator insertion when the left part is
separator-free. -/
theorem splitCh_append_sep (sep : Char) (l rest : List Char) (hl : sep ∉ l) :
    splitCh sep (l ++ sep :: rest) = l :: splitCh sep rest := by
  induction l with
  | nil =>
    simp only [List.nil_append, splitCh]
    rcases h : splitCh sep rest with _ | ⟨l', ls'⟩
    · exact absurd h (splitCh_ne_nil sep rest)
    · simp
  | cons c cs ih =>
    have hc : c ≠ sep := fun h => hl (by simp [h])
    have hcs : sep ∉ cs := fun h => hl (by simp [h])
    simp only [List.cons_append, splitCh, List.append_eq]
    rw [ih hcs]
    simp [hc]

/-- Splitting after joining recovers the chunks, provided no chunk contains
the separator. -/
theorem splitCh_joinCh (sep : Char) (ls : List (List Char)) (hne : ls ≠ [])
    (hfree : ∀ x ∈ ls, sep ∉ x) : splitCh sep (joinCh sep ls) = ls := by
  induction ls with
  | nil => exact absurd rfl hne
  | cons l ls ih =>
    cases ls with
    | nil => exact splitCh_of_no_sep sep l (hfree l (by simp))
    | cons l2 ls2 =>
      have hjoin : joinCh sep (l :: l2 :: ls2) = l ++ sep :: joinCh sep (l2 :: ls2) := rfl
      rw [hjoin, splitCh_append_sep sep l _ (hfree l (by simp))]
      rw [ih (by simp) (fun x hx => hfree x (by simp [hx]))]

/-- Appending a separator to a join is joining with an extra empty chunk. -/
theorem joinCh_append_sep (sep : Char) (ls : List (List Char)) (hne : ls ≠ []) :
    joinCh sep ls ++ [sep] = joinCh sep (ls ++ [[]]) := by
  induction ls with
  | nil => exact absurd rfl hne
  | cons l ls ih =>
    cases ls with
    | nil => simp [joinCh]
    | cons l2 ls2 =>
      have h1 : joinCh sep (l :: l2 :: ls2) = l ++ sep :: joinCh sep (l2 :: ls2) := rfl
      have h2 : joinCh sep ((l :: l2 :: ls2) ++ [[]]) =
          l ++ sep :: joinCh sep ((l2 :: ls2) ++ [[]]) := rfl
      rw [h1, h2, List.append_assoc, List.cons_append]
      have := ih (by simp)
      simp only [List.cons_append] at this ⊢
      rw [← this]

/-! ## Data model (`internal/config/config.go`)

Regex pattern lists (`GeneratedPatterns`, `ReplacePatterns`, `ThirdParty.Patterns`)
are modelled as lists of compiled match predicates `String → Bool`. -/

structure Copyright where
  Holder : String
  StartYear : Int
  CurrentYear : Int
  Format : String

structure License where
  Enabled : Bool
  Identifier : String
  Format : String

structure SmartExtensionIndicators where
  Extension : String
  Patterns : List String
  Filenames : List String

structure PlacementExceptions where
  XMLDeclaration : Bool
  MarkdownHeading : Bool
  Frontmatter : List String

structure Files where
  Extensions : List String
  SmartExtensions : List String
  SmartExtensionIndicators : List SmartExtensionIndicators
  IgnorePatterns : List String
  IncludePaths : List String
  ExcludePaths : List String
  CommentStyles : List (String × String)
  BelowFrontmatter : List String
  PlacementExceptions : PlacementExceptions
  GitTracked : Bool

structure Detection where
  SkipGenerated : Bool
  GeneratedPatterns : List (String → Bool)
  ReplacePatterns : List (String → Bool)
  MaxScanLines : Int
  RequireAtTop : Bool

structure ThirdParty where
  Action : String
  Patterns : List (String → Bool)

structure Config where
  Copyright : Copyright
  License : License
  Files : Files
  Detection : Detection
  ThirdParty : ThirdParty

/-- Go map indexing `m[key]` on a `map[string]string`, returning the zero
value `""` for a missing key. -/
def lookupStyle (styles : List (String × String)) (key : String) : String :=
  match styles.find? (fun p => p.1 = key) with
  | some p => p.2
  | none => ""

/-- Go `text/template` expansion, modelled for templates made of literal text
and simple field references `{{.Name}}` (the only forms the repository's
configurations use).  Any other `{{` action is a parse/execute error,
modelled as `none`.  The `fuel` argument only makes the recursion
structural; every step consumes at least one character, so the wrapper's
`format.length` fuel never runs out. -/
def expandT (fields : List (String × String)) : Nat → List Char → Option (List Char)
  | _, [] => some []
  | 0, _ :: _ => none
  | fuel + 1, '{' :: '{' :: rest =>
    match fields.find? (fun f => ("." ++ f.1 ++ "\x7d\x7d").data.isPrefixOf rest) with
    | some f =>
      match expandT fields fuel (rest.drop (f.1.data.length + 3)) with
      | some r => some (f.2.data ++ r)
      | none => none
    | none => none
  | fuel + 1, c :: rest =>
    match expandT fields fuel rest with
    | some r => some (c :: r)
    | none => none

/-- Template expansion of a format string against a field table. -/
def expandTemplate (fields : List (String × String)) (format : String) : Option String :=
  (expandT fields format.data.length format.data).map String.mk

/-- The fields `text/template` can reference on the `Copyright` struct. -/
def copyrightFields (c : Copyright) : List (String × String) :=
  [("Holder", c.Holder), ("StartYear", toString c.StartYear),
   ("CurrentYear", toString c.CurrentYear), ("Format", c.Format)]

/-- The fields `text/template` can reference on the `License` struct. -/
def licenseFields (l : License) : List (String × String) :=
  [("Enabled", if l.Enabled then "true" else "false"),
   ("Identifier", l.Identifier), ("Format", l.Format)]

/-- The comment-prefix resolution shared verbatim by `GetCopyrightHeader`,
`GetLicenseHeader`, `IsOwnCopyrightLine` and `fixFile`: configured
`CommentStyles` lookup on the dot-stripped extension key, else the hardcoded
fallback table. -/
def commentPrefixFor (cfg : Config) (ext : String) : String :=
  let extKey := replaceAllCh '.' '_' (goTrimPrefix ext ".")
  let pfx := lookupStyle cfg.Files.CommentStyles extKey
  if pfx = "" then
    if ext = ".go" then "//"
    else if ext = ".sh" ∨ ext = ".py" ∨ ext = ".hcl" ∨ ext = ".tf" ∨
        ext = ".yml" ∨ ext = ".yaml" then "#"
    else if ext = ".md" ∨ ext = ".html.markdown" then "<!--"
    else "//"
  else pfx

/-- The style-specific wrapping applied by `GetCopyrightHeader` and
`GetLicenseHeader` to the template-expanded text (lines 104–122 of the
config source, shared by both functions). -/
def wrapHeader (cfg : Config) (ext text : String) : String :=
  let pfx := commentPrefixFor cfg ext
  if pfx = "<!--" then pfx ++ " " ++ text ++ " -->"
  else if pfx = "/**" then " * " ++ text
  else if (ext = ".yml" ∨ ext = ".yaml") ∧ goContains text ":" then
    pfx ++ " \"" ++ text ++ "\""
  else pfx ++ " " ++ text

/-- `Config.GetCopyrightHeader`; `none` models the template error return. -/
def GetCopyrightHeader (cfg : Config) (ext : String) : Option String :=
  match expandTemplate (copyrightFields cfg.Copyright) cfg.Copyright.Format with
  | some text => some (wrapHeader cfg ext text)
  | none => none

/-- `Config.GetLicenseHeader`; returns `""` when the license is disabled. -/
def GetLicenseHeader (cfg : Config) (ext : String) : Option String :=
  if ¬cfg.License.Enabled then some "" else
  match expandTemplate (licenseFields cfg.License) cfg.License.Format with
  | some text => some (wrapHeader cfg ext text)
  | none => none

/-- `Config.IsGenerated`: first (or second) line matches a generated pattern,
only when `skip_generated` is on. -/
def IsGenerated (cfg : Config) (lines : List String) : Bool :=
  if ¬cfg.Detection.SkipGenerated ∨ lines = [] then false else
  cfg.Detection.GeneratedPatterns.any fun m =>
    match lines with
    | [] => false
    | l0 :: rest =>
      m l0 || (match rest with
               | [] => false
               | l1 :: _ => m l1)

/-- `Config.ShouldReplace`: some replace pattern matches the line. -/
def ShouldReplace (cfg : Config) (line : String) : Bool :=
  cfg.Detection.ReplacePatterns.any fun m => m line

/-- `Config.IsThirdPartyCopyright`: replace patterns take precedence, then
third-party patterns are tried. -/
def IsThirdPartyCopyright (cfg : Config) (line : String) : Bool :=
  if ShouldReplace cfg line then false
  else cfg.ThirdParty.Patterns.any fun m => m line

/-- Whitespace class `\s` of Go's `regexp` (RE2): `[\t\n\f\r ]`. -/
def reWS (c : Char) : Bool :=
  c = '\t' || c = '\n' || c = Char.ofNat 12 || c = '\r' || c = ' '

/-- `l.isPrefixOf`-based cut: `some rest` when `pfx` is a prefix. -/
def cutPrefixL (pfx l : List Char) : Option (List Char) :=
  if pfx.isPrefixOf l then some (l.drop pfx.length) else none

/-- The own-copyright regex `^Copyright\s+<holder>\s+\d{4}(,\s*\d{4})?$`
(with the holder quoted literally via `regexp.QuoteMeta`), implemented as a
deterministic parser.  Faithful for holders that are nonempty and do not
start with a regex-whitespace character (true of every holder in play). -/
def matchesOwnCopyrightPattern (holder content : String) : Bool :=
  match cutPrefixL "Copyright".data content.data with
  | none => false
  | some r1 =>
    let ws1 := r1.takeWhile reWS
    let r2 := r1.dropWhile reWS
    if ws1 = [] then false else
    match cutPrefixL holder.data r2 with
    | none => false
    | some r3 =>
      let ws2 := r3.takeWhile reWS
      let r4 := r3.dropWhile reWS
      if ws2 = [] then false else
      let d1 := r4.take 4
      let rest := r4.drop 4
      if d1.length = 4 ∧ d1.all Char.isDigit then
        match rest with
        | [] => true
        | ',' :: r5 =>
          let d2 := r5.dropWhile reWS
          d2.length = 4 ∧ d2.all Char.isDigit
        | _ => false
      else false

/-- `Config.IsOwnCopyrightLine`: strip the comment prefix for the extension
(`" * "` for block style, trimmed prefix otherwise, `-->` suffix for HTML),
then match the own-copyright pattern. -/
def IsOwnCopyrightLine (cfg : Config) (line ext : String) : Bool :=
  let pfx := commentPrefixFor cfg ext
  let content? : Option String :=
    if pfx = "/**" then
      match goCutPrefix line " * " with
      | some after => some (goTrim after)
      | none => none
    else
      let trimmed := goTrim line
      match goCutPrefix trimmed pfx with
      | some after =>
        let content := goTrim after
        if pfx = "<!--" then some (goTrim (goTrimSuffix content "-->"))
        else some content
      | none => none
  match content? with
  | none => false
  | some content => matchesOwnCopyrightPattern cfg.Copyright.Holder content

/-- Score of one indicator in `detectByScoring`: content patterns found in
the content plus filename patterns found in the filename. -/
def scoreOf (ind : SmartExtensionIndicators) (content filename : String) : Nat :=
  (ind.Patterns.filter (fun p => goContains content p)).length +
  (ind.Filenames.filter (fun p => goContains filename p)).length

/-- Go map assignment `scores[ext] = score`: overwrite in place or append. -/
def upsertScore : List (String × Nat) → String → Nat → List (String × Nat)
  | [], k, v => [(k, v)]
  | (k', v') :: rest, k, v =>
    if k' = k then (k, v) :: rest else (k', v') :: upsertScore rest k v

/-- The `scores` map after `detectByScoring`'s indicator loop.  Go map
iteration order is unspecified; the map is modelled as an association list
iterated in first-insertion order. -/
def buildScores (cfg : Config) (content filename : String) : List (String × Nat) :=
  cfg.Files.SmartExtensionIndicators.foldl
    (fun acc ind => upsertScore acc ind.Extension (scoreOf ind content filename)) []

/-- `detectByScoring`: scan the scores map keeping the entry whose score
strictly exceeds the running maximum, starting from `(0, ".go")`. -/
def detectByScoring (cfg : Config) (content filename : String) : String :=
  let scores := buildScores cfg content filename
  (scores.foldl (fun acc p => if p.2 > acc.1 then (p.2, p.1) else acc)
    ((0 : Nat), ".go")).2

/-- `detectByPatterns`: the ordered hardcoded fallback heuristic. -/
def detectByPatterns (_cfg : Config) (content filename : String) : String :=
  if goContains content "package " ∨ goContains content "func " ∨
      goContains content "import (" ∨
      (goContains content "type " ∧ goContains content "struct") then ".go"
  else if goContains content "resource \"" ∨ goContains content "data \"" ∨
      goContains content "variable \"" ∨ goContains content "output \"" ∨
      goContains content "provider \"" ∨ goContains content "terraform \x7b" ∨
      goContains filename ".tf." ∨ goContains filename "terraform" then ".tf"
  else if goContains content "## " ∨ goContains content "### " ∨
      goContains content "```" ∨
      (goContains content "[" ∧ goContains content "](") ∨
      (goContains content "# " ∧
        (goContains content "layout:" ∨ goContains content "subcategory:")) then ".md"
  else if goContains content "---" ∨
      (goContains content ":" ∧ goContains content "\n") then ".yml"
  else if goContains filename "markdown" ∨ goContains filename "md" then ".md"
  else ".go"

/-- `DetectSmartExtensionType`: null byte among the first 512 bytes means
binary (empty result); otherwise score-based or pattern-based detection. -/
def DetectSmartExtensionType (cfg : Config) (content : String) (filename : String) : String :=
  let checkLen := min content.data.length 512
  if (content.data.take checkLen).any (fun c => c = Char.ofNat 0) then ""
  else if cfg.Files.SmartExtensionIndicators.length > 0 then
    detectByScoring cfg content filename
  else
    detectByPatterns cfg content filename

/-! ## The `copyright` package (checker, fixer, file helpers) -/

/-- A check-mode problem report (`types.go`). -/
structure Issue where
  File : String
  Problem : String
  deriving DecidableEq

/-- `hasShebang`: the first line starts with `#!`. -/
def hasShebang (lines : List String) : Bool :=
  match lines with
  | [] => false
  | l :: _ => goHasPrefix l "#!"

/-- Index (counting from `i`) of the first remaining line whose trimmed text
is exactly `---`. -/
def findFMClose : List String → Nat → Option Nat
  | [], _ => none
  | l :: ls, i => if goTrim l = "---" then some i else findFMClose ls (i + 1)

/-- `getFrontmatterEnd` (files source): only for files whose name ends in a
configured `below_frontmatter` extension, and only when *line 0* is `---`;
returns the index just past the closing `---`, else `0`. -/
def getFrontmatterEnd (lines : List String) (cfg : Config) (file : String) : Nat :=
  match cfg.Files.BelowFrontmatter.find? (fun belowExt => goHasSuffix file belowExt) with
  | some _ =>
    if lines.length > 0 ∧ goTrim (lines.getD 0 "") = "---" then
      match findFMClose (lines.drop 1) 1 with
      | some i => i + 1
      | none => 0
    else 0
  | none => 0

/-- Modelled from the spec: `hasXMLDeclaration` is called by `fixFile` and
exercised by the unit tests, but its definition is not among the sources.
Spec §4.4 step 2: the first line of the given slice, after trimming
whitespace, starts with `<?xml`. -/
def hasXMLDeclaration (lines : List String) : Bool :=
  match lines with
  | [] => false
  | l :: _ => goHasPrefix (goTrim l) "<?xml"

/-- Modelled from the spec: `hasMarkdownHeading` is called by `fixFile` and
exercised by the unit tests, but its definition is not among the sources.
Spec §4.4 step 4: the trimmed first line of the slice is a single `#`
followed by a space (so not `##`). -/
def hasMarkdownHeading (lines : List String) : Bool :=
  match lines with
  | [] => false
  | l :: _ => goHasPrefix (goTrim l) "# "

/-- Modelled from the spec: `getFrontmatterEndNew` is called by `fixFile` but
its definition is not among the sources.  Spec §4.4 step 3: if the effective
filename's extension is in the configured frontmatter-extension list and the
line at the current offset (after the shebang step) is exactly `---`
(trimmed), scan forward for the next exact `---` line; if found the result
is the index after that line, otherwise the offset is left unchanged
(returning `0`, which the caller ignores because it only raises the offset). -/
def getFrontmatterEndNew (lines : List String) (cfg : Config) (file : String) : Nat :=
  let off := if hasShebang lines then 1 else 0
  match cfg.Files.BelowFrontmatter.find? (fun belowExt => goHasSuffix file belowExt) with
  | some _ =>
    if off < lines.length ∧ goTrim (lines.getD off "") = "---" then
      match findFMClose (lines.drop (off + 1)) (off + 1) with
      | some i => i + 1
      | none => 0
    else 0
  | none => 0

/-- `isSPDXHeaderLine`: strip the comment prefix (block style uses a literal
`" * "` prefix without trimming first) and match the SPDX regex
`SPDX-License-Identifier:\s*"?[^"]*"?` — everything after the literal is
optional, so the regex matches exactly when the literal occurs. -/
def isSPDXHeaderLine (line commentPrefix : String) : Bool :=
  if commentPrefix = "/**" then
    match goCutPrefix line " * " with
    | some after => goContains (goTrim after) "SPDX-License-Identifier:"
    | none => false
  else
    match goCutPrefix (goTrim line) commentPrefix with
    | some after => goContains (goTrim after) "SPDX-License-Identifier:"
    | none => false

/-- `isBlockCommentStyle`: the *configured* comment style (no fallback) is
the block marker. -/
def isBlockCommentStyle (cfg : Config) (ext : String) : Bool :=
  let extKey := replaceAllCh '.' '_' (goTrimPrefix ext ".")
  lookupStyle cfg.Files.CommentStyles extKey = "/**"

/-- Go `filepath.Ext`: the suffix of the last slash-separated element
starting at its final dot; empty when that element has no dot. -/
def goFilepathExt (path : String) : String :=
  let revBase := path.data.reverse.takeWhile (fun c => c ≠ '/')
  match revBase.findIdx? (fun c => c = '.') with
  | some k => ⟨(revBase.take (k + 1)).reverse⟩
  | none => ""

/-- The extension resolution at the top of `fixFile`: `filepath.Ext`,
upgraded to the first configured compound extension that suffixes the file
and is longer, then to the first configured smart extension that suffixes
the file and is at least as long (flagging smart handling). -/
def fixFileExt (cfg : Config) (file : String) : String × Bool :=
  let ext0 := goFilepathExt file
  let ext1 :=
    match cfg.Files.Extensions.find?
        (fun v => goHasSuffix file v ∧ v.data.length > ext0.data.length) with
    | some v => v
    | none => ext0
  match cfg.Files.SmartExtensions.find?
      (fun s => goHasSuffix file s ∧ s.data.length ≥ ext1.data.length) with
  | some s => (s, true)
  | none => (ext1, false)

/-- State accumulated by `fixFile`'s header-window scan. -/
structure ScanState where
  hasCopyright : Bool
  hasCorrectCopyright : Bool
  hasCorrectLicense : Bool
  thirdPartyLines : List String

/-- One line of `fixFile`'s header-window scan (fixer source lines 205–228):
replace-pattern, own-copyright (stale vs current), third-party, exact
copyright, exact license, then SPDX — first match wins. -/
def scanStep (cfg : Config) (ext cH lH pfx : String) (st : ScanState) (line : String) :
    ScanState :=
  if ShouldReplace cfg line then { st with hasCopyright := true }
  else if IsOwnCopyrightLine cfg line ext then
    if goTrim line ≠ goTrim cH then { st with hasCopyright := true }
    else { st with hasCorrectCopyright := true }
  else if IsThirdPartyCopyright cfg line then
    { st with thirdPartyLines := st.thirdPartyLines ++ [line] }
  else if goTrim line = goTrim cH then { st with hasCorrectCopyright := true }
  else if lH ≠ "" ∧ goTrim line = goTrim lH then { st with hasCorrectLicense := true }
  else if isSPDXHeaderLine line pfx then
    if lH = "" ∨ goTrim line ≠ goTrim lH then { st with hasCopyright := true }
    else st
  else st

/-- `fixFile`'s look-ahead from an opening comment marker: scan the remaining
lines (from index `j`) until the close marker (or the window/file end) for a
replace-pattern, own-copyright or SPDX line. -/
def blockContainsCopyright (cfg : Config) (ext pfx closeMarker : String)
    (maxScan : Nat) : List String → Nat → Bool
  | [], _ => false
  | checkLine :: rest, j =>
    if j < maxScan then
      let checkTrimmed := goTrim checkLine
      if checkTrimmed = closeMarker ∨ goHasSuffix checkTrimmed closeMarker then false
      else if ShouldReplace cfg checkLine ∨ IsOwnCopyrightLine cfg checkLine ext ∨
          isSPDXHeaderLine checkLine pfx then true
      else blockContainsCopyright cfg ext pfx closeMarker maxScan rest (j + 1)
    else false

/-- `fixFile`'s body-reconstruction loop (fixer source lines 274–367) over
the remaining lines (from index `i`), with its `skipNext` /
`inCopyrightBlock` / `skipNextBlank` flags and the `fixed` flag it threads;
returns the kept lines and the final `fixed` value. -/
def fixLoop (cfg : Config) (ext cH lH pfx : String) (maxScan : Nat) :
    List String → Nat → Bool → Bool → Bool → Bool → List String × Bool
  | [], _, _, _, _, fixed => ([], fixed)
  | line :: rest, i, skipNext, inBlock, skipBlank, fixed =>
    let trimmed := goTrim line
    if i < maxScan then
      let closeMarker := if trimmed = "/**" then "*/" else "-->"
      let foundBlock := (trimmed = "<!--" ∨ trimmed = "/**") ∧
        blockContainsCopyright cfg ext pfx closeMarker maxScan rest (i + 1)
      let inBlock1 := inBlock ∨ foundBlock
      let fixed1 := fixed ∨ foundBlock
      if (trimmed = "<!--" ∨ trimmed = "/**") ∧ inBlock1 then
        fixLoop cfg ext cH lH pfx maxScan rest (i + 1) skipNext inBlock1 skipBlank fixed1
      else if inBlock1 then
        if trimmed = "-->" ∨ trimmed = "*/" ∨ goHasSuffix trimmed "*/" then
          fixLoop cfg ext cH lH pfx maxScan rest (i + 1) skipNext false true fixed1
        else
          fixLoop cfg ext cH lH pfx maxScan rest (i + 1) skipNext inBlock1 skipBlank fixed1
      else if skipBlank ∧ trimmed = "" then
        fixLoop cfg ext cH lH pfx maxScan rest (i + 1) skipNext inBlock1 false fixed1
      else if goTrim line = goTrim cH ∨ (lH ≠ "" ∧ goTrim line = goTrim lH) then
        fixLoop cfg ext cH lH pfx maxScan rest (i + 1) true inBlock1 false fixed1
      else if IsOwnCopyrightLine cfg line ext then
        fixLoop cfg ext cH lH pfx maxScan rest (i + 1) true inBlock1 false true
      else if isSPDXHeaderLine line pfx then
        fixLoop cfg ext cH lH pfx maxScan rest (i + 1) true inBlock1 false true
      else if ShouldReplace cfg line then
        fixLoop cfg ext cH lH pfx maxScan rest (i + 1) true inBlock1 false true
      else if IsThirdPartyCopyright cfg line ∧ cfg.ThirdParty.Action ≠ "leave" then
        fixLoop cfg ext cH lH pfx maxScan rest (i + 1) true inBlock1 false true
      else if skipNext ∧ trimmed = "" then
        fixLoop cfg ext cH lH pfx maxScan rest (i + 1) false inBlock1 false fixed1
      else
        let r := fixLoop cfg ext cH lH pfx maxScan rest (i + 1) false inBlock1 false fixed1
        (line :: r.1, r.2)
    else
      let r := fixLoop cfg ext cH lH pfx maxScan rest (i + 1) false inBlock skipBlank fixed
      (line :: r.1, r.2)

/-- `addHeaders` (closure inside `fixFile`): the canonical header block,
wrapped in `/**` … ` */` for block comment styles. -/
def addHeaders (cfg : Config) (ext cH lH : String) : List String :=
  if isBlockCommentStyle cfg ext then
    ["/**", cH] ++ (if lH ≠ "" then [lH] else []) ++ [" */"]
  else
    [cH] ++ (if lH ≠ "" then [lH] else [])

/-- `addBlankLineIfNeeded`: the separator blank line, omitted when the next
body line is already blank. -/
def blankLineIfNeeded (lines : List String) (startLine : Nat) : List String :=
  if startLine < lines.length ∧ goTrim (lines.getD startLine "") = "" then []
  else [""]

/-- The effective extension `fixFile` processes with: the resolved extension,
replaced by the detected content type for smart extensions. -/
def fixFileEffExt (cfg : Config) (content file : String) : String :=
  if (fixFileExt cfg file).2 then DetectSmartExtensionType cfg content file
  else (fixFileExt cfg file).1

/-- The placement offset `fixFile` reaches after its shebang, XML
declaration, frontmatter and markdown-heading steps (the Go code appends
exactly `lines[0:startLine]` to the result along the way). -/
def fixFileStartLine (cfg : Config) (lines : List String) (isSmartExt : Bool)
    (ext file : String) : Nat :=
  let start0 := if hasShebang lines then 1 else 0
  let start1 := if start0 < lines.length ∧ cfg.Files.PlacementExceptions.XMLDeclaration ∧
      hasXMLDeclaration (lines.drop start0) then start0 + 1 else start0
  let frontmatterFile := if isSmartExt then "dummy" ++ ext else file
  let fmEnd := getFrontmatterEndNew lines cfg frontmatterFile
  let start2 := if fmEnd > start1 then fmEnd else start1
  let isMarkdown := goHasSuffix file ".md" ∨ goHasSuffix file ".markdown"
  if start2 < lines.length ∧ isMarkdown ∧
      cfg.Files.PlacementExceptions.MarkdownHeading ∧
      hasMarkdownHeading (lines.drop start2) then start2 + 1 else start2

/-- The header-window bound: `startLine + max_scan_lines` capped at the line
count when the bound is positive, the whole file otherwise. -/
def scanLimit (cfg : Config) (startLine len : Nat) : Nat :=
  if cfg.Detection.MaxScanLines > 0 then
    min (startLine + cfg.Detection.MaxScanLines.toNat) len
  else len

/-- The pure core of `fixFile` (everything after a successful read): returns
whether the file is reported fixed, and the file's resulting content (the
newly written content when fixed, the original content otherwise). -/
def fixFileContent (cfg : Config) (content file : String) : Bool × String :=
  let lines := goSplitLines content
  if lines.length = 0 ∨ IsGenerated cfg lines then (false, content) else
  let extPair := fixFileExt cfg file
  let isSmartExt := extPair.2
  let detected := DetectSmartExtensionType cfg content file
  if isSmartExt ∧ detected = "" then (false, content) else
  let ext := fixFileEffExt cfg content file
  match GetCopyrightHeader cfg ext with
  | none => (false, content)
  | some cH =>
  match GetLicenseHeader cfg ext with
  | none => (false, content)
  | some lH =>
    let startLine := fixFileStartLine cfg lines isSmartExt ext file
    let pre := lines.take startLine
    let maxScan := scanLimit cfg startLine lines.length
    let pfx := commentPrefixFor cfg ext
    let st := ((lines.drop startLine).take (maxScan - startLine)).foldl
      (scanStep cfg ext cH lH pfx) ⟨false, false, false, []⟩
    if st.hasCorrectCopyright ∧ (lH = "" ∨ st.hasCorrectLicense) then (false, content)
    else
      let headers := addHeaders cfg ext cH lH
      let sep := blankLineIfNeeded lines startLine
      let headerPart :=
        if cfg.ThirdParty.Action = "above" then headers ++ st.thirdPartyLines ++ sep
        else if cfg.ThirdParty.Action = "below" then st.thirdPartyLines ++ headers ++ sep
        else headers ++ sep
      let body := fixLoop cfg ext cH lH pfx maxScan (lines.drop startLine) startLine
        false false false false
      let fixedFinal :=
        if ¬st.hasCopyright ∧ st.thirdPartyLines = [] then true
        else if st.thirdPartyLines ≠ [] then true
        else body.2
      if fixedFinal then (true, goJoinLines (pre ++ headerPart ++ body.1))
      else (false, content)

/-- `ProcessContent`'s body-reconstruction loop (fixer source lines 487–530)
over the remaining lines (from index `i`): like `fixLoop` but without the
multi-line-block machinery, and with no `fixed` flag. -/
def processLoop (cfg : Config) (ext cH lH pfx : String) (maxScan : Nat) :
    List String → Nat → Bool → List String
  | [], _, _ => []
  | line :: rest, i, skipNext =>
    if i < maxScan then
      if goTrim line = goTrim cH ∨ (lH ≠ "" ∧ goTrim line = goTrim lH) then
        processLoop cfg ext cH lH pfx maxScan rest (i + 1) true
      else if IsOwnCopyrightLine cfg line ext then
        processLoop cfg ext cH lH pfx maxScan rest (i + 1) true
      else if isSPDXHeaderLine line pfx then
        processLoop cfg ext cH lH pfx maxScan rest (i + 1) true
      else if ShouldReplace cfg line then
        processLoop cfg ext cH lH pfx maxScan rest (i + 1) true
      else if IsThirdPartyCopyright cfg line ∧ cfg.ThirdParty.Action ≠ "leave" then
        processLoop cfg ext cH lH pfx maxScan rest (i + 1) true
      else if skipNext ∧ goTrim line = "" then
        processLoop cfg ext cH lH pfx maxScan rest (i + 1) false
      else
        line :: processLoop cfg ext cH lH pfx maxScan rest (i + 1) false
    else
      line :: processLoop cfg ext cH lH pfx maxScan rest (i + 1) false

/-- `Fixer.ProcessContent`: the in-memory header normalization engine.
`none` models the error return (template failure); on the generated-file
path the input is returned unchanged. -/
def ProcessContent (cfg : Config) (content : String) (ext : String) : Option String :=
  let lines := goSplitLines content
  if lines.length = 0 ∨ IsGenerated cfg lines then some content else
  match GetCopyrightHeader cfg ext with
  | none => none
  | some cH =>
  match GetLicenseHeader cfg ext with
  | none => none
  | some lH =>
    let startLine := if hasShebang lines then 1 else 0
    let pre := if hasShebang lines then [lines.getD 0 ""] else []
    let maxScan := scanLimit cfg startLine lines.length
    let thirdPartyLines := ((lines.drop startLine).take (maxScan - startLine)).filter
      (fun line => IsThirdPartyCopyright cfg line)
    let headerPart :=
      if cfg.ThirdParty.Action = "above" then
        [cH] ++ (if lH ≠ "" then [lH] else []) ++ thirdPartyLines ++ [""]
      else if cfg.ThirdParty.Action = "below" then
        thirdPartyLines ++ [cH] ++ (if lH ≠ "" then [lH] else []) ++ [""]
      else
        [cH] ++ (if lH ≠ "" then [lH] else []) ++ [""]
    let pfx := commentPrefixFor cfg ext
    let body := processLoop cfg ext cH lH pfx maxScan (lines.drop startLine) startLine false
    let out := goJoinLines (pre ++ headerPart ++ body)
    some (if goHasSuffix content "\n" ∧ ¬goHasSuffix out "\n" then out ++ "\n" else out)

/-- `checkFile`'s header-window loop over the remaining lines (from index
`i`): look for the (trimmed, prefix-stripped) copyright and license needles;
`none` models the early "copyright not at top of file" return. -/
def checkScan (needleC needleL : String) (licenseOn requireAtTop : Bool)
    (start maxScan : Nat) : List String → Nat → Bool → Bool → Option (Bool × Bool)
  | [], _, fc, fl => some (fc, fl)
  | line :: rest, i, fc, fl =>
    if i < maxScan then
      let hitC := goContains line needleC
      if hitC ∧ requireAtTop ∧ i ≠ start then none
      else checkScan needleC needleL licenseOn requireAtTop start maxScan rest (i + 1)
        (fc ∨ hitC) (fl ∨ (licenseOn ∧ goContains line needleL))
    else some (fc, fl)

/-- The pure core of `checkFile` (everything after a successful read).
The text of a template error is opaque; it is modelled by a fixed message
with the `"config error: "` prefix the source prepends. -/
def checkFileContent (cfg : Config) (content file : String) : Option Issue :=
  let lines := goSplitLines content
  if lines.length = 0 then some ⟨file, "empty file"⟩ else
  if IsGenerated cfg lines then none else
  let ext := goFilepathExt file
  match GetCopyrightHeader cfg ext with
  | none => some ⟨file, "config error: invalid template"⟩
  | some expectedHeader =>
  match GetLicenseHeader cfg ext with
  | none => some ⟨file, "config error: invalid template"⟩
  | some expectedLicense =>
    let start0 := if hasShebang lines then 1 else 0
    let fmEnd := getFrontmatterEnd lines cfg file
    let startLine := if fmEnd > start0 then fmEnd else start0
    if startLine ≥ lines.length then some ⟨file, "missing copyright header"⟩ else
    let maxScan := scanLimit cfg startLine lines.length
    let needleC := goTrim ⟨expectedHeader.data.drop 2⟩
    let needleL := goTrim ⟨expectedLicense.data.drop 2⟩
    match checkScan needleC needleL (expectedLicense ≠ "") cfg.Detection.RequireAtTop
        startLine maxScan (lines.drop startLine) startLine false false with
    | none => some ⟨file, "copyright not at top of file"⟩
    | some (fc, fl) =>
      if ¬fc then some ⟨file, "missing or incorrect copyright header"⟩
      else if expectedLicense ≠ "" ∧ ¬fl then some ⟨file, "missing license header"⟩
      else none

/-! ## The doublestar glob matcher (external library `bmatcuk/doublestar/v4`)

`matchesPath` delegates to `doublestar.Match`.  The library is modelled for
patterns built from literal characters, `?`, `*` and `**` segments: a
pattern and a path are split on `/`; a `**` segment spans zero or more path
segments; within a segment `*` matches any run of characters and `?` any
single character.  (Character classes, brace alternation and backslash
escapes of the library are outside this model; the patterns this claim
quantifies over do not change shape under it.) -/

/-- Segment-level glob matching (`*`, `?`, literals). -/
def matchSeg : List Char → List Char → Bool
  | [], [] => true
  | [], _ :: _ => false
  | '*' :: ps, ns =>
    matchSeg ps ns ||
      (match ns with
       | [] => false
       | _ :: ns' => matchSeg ('*' :: ps) ns')
  | '?' :: ps, ns =>
    (match ns with
     | [] => false
     | _ :: ns' => matchSeg ps ns')
  | c :: ps, ns =>
    (match ns with
     | [] => false
     | n :: ns' => c = n && matchSeg ps ns')
  termination_by p n => (n.length, p.length)

/-- Path-level glob matching; a `**` segment matches zero or more path
segments. -/
def matchSegs : List (List Char) → List (List Char) → Bool
  | [], [] => true
  | [], _ :: _ => false
  | p :: ps, ns =>
    if p = ['*', '*'] then
      matchSegs ps ns ||
        (match ns with
         | [] => false
         | _ :: ns' => matchSegs (p :: ps) ns')
    else
      match ns with
      | [] => false
      | n :: ns' => matchSeg p n && matchSegs ps ns'
  termination_by p n => (n.length, p.length)

/-- `doublestar.Match` (modelled as described above). -/
def doublestarMatch (pattern path : String) : Bool :=
  matchSegs (splitCh '/' pattern.data) (splitCh '/' path.data)

/-- `matchesPath` (config source lines 248–269): exact match, then the
`/*`→`/**` retry for directory-wildcard patterns, then the implicit `/**`
suffix retry for patterns not already ending in `/**`. -/
def matchesPath (pattern path : String) : Bool :=
  if doublestarMatch pattern path then true
  else
    match goCutSuffix pattern "/*" with
    | some before => doublestarMatch (before ++ "/**") path
    | none =>
      if ¬goHasSuffix pattern "/**" then doublestarMatch (pattern ++ "/**") path
      else false

/-! ## The fixed fuzz-test configuration (`createConfigForExtension`)

The repository states and fuzz-tests its normalization properties against
this configuration.  Its two regexes are modelled by their compiled match
predicates:

* third-party pattern `Copyright.*` matches a line exactly when the line
  contains the literal `Copyright` (the `.*` tail can match the empty
  string);
* replace pattern `Copyright (c) HashiCorp, Inc.` is the literal
  `Copyright c HashiCorp, Inc` (the parentheses form a group around the
  literal `c`) followed by one arbitrary non-newline character (the
  unescaped final `.`). -/

/-- Literal occurrence followed by at least one further non-newline
character (a trailing unescaped `.` in a regex). -/
def containsSeqThenAny (pat : List Char) : List Char → Bool
  | [] => false
  | c :: t =>
    (pat.isPrefixOf (c :: t) &&
      (match (c :: t).drop pat.length with
       | d :: _ => d ≠ '\n'
       | [] => false)) ||
    containsSeqThenAny pat t

/-- Compiled form of the third-party pattern `Copyright.*`. -/
def matchCopyrightAny (line : String) : Bool := goContains line "Copyright"

/-- Compiled form of the replace pattern `Copyright (c) HashiCorp, Inc.`. -/
def matchHashiCorp (line : String) : Bool :=
  containsSeqThenAny "Copyright c HashiCorp, Inc".data line.data

/-- `createConfigForExtension` from the repository's fuzz test: the fixed
configuration under which the normalization-engine properties are stated. -/
def createConfigForExtension (ext : String) : Config :=
  let commentStyle : String :=
    if ext = ".go" then "//"
    else if ext = ".sh" ∨ ext = ".py" then "#"
    else "//"
  { Copyright := { Holder := "Dirk Avery", StartYear := 0, CurrentYear := 2025,
                   Format := "Copyright {{.Holder}} {{.CurrentYear}}" }
    License := { Enabled := true, Identifier := "MIT",
                 Format := "SPDX-License-Identifier: {{.Identifier}}" }
    Files := { Extensions := [".go", ".sh", ".py"], SmartExtensions := [],
               SmartExtensionIndicators := [], IgnorePatterns := [],
               IncludePaths := [], ExcludePaths := [],
               CommentStyles := [(ext, commentStyle)], BelowFrontmatter := [],
               PlacementExceptions := ⟨false, false, []⟩, GitTracked := false }
    Detection := { SkipGenerated := false, GeneratedPatterns := [],
                   ReplacePatterns := [matchHashiCorp], MaxScanLines := 20,
                   RequireAtTop := false }
    ThirdParty := { Action := "replace", Patterns := [matchCopyrightAny] } }

/-! ## Further concrete configurations used by individual claims -/

/-- Literal `a` followed (later on the same line, `.*` in between) by
literal `b`: the compiled form of regexes like `Copyright.*HashiCorp`. -/
def containsThen (a b : List Char) : List Char → Bool
  | [] => false
  | c :: t =>
    (a.isPrefixOf (c :: t) && containsL b ((c :: t).drop a.length)) ||
    containsThen a b t

/-- Compiled form of the generated pattern `Code generated`. -/
def matchCodeGenerated (l : String) : Bool := goContains l "Code generated"

/-- Compiled form of the replace pattern `Copyright.*HashiCorp`. -/
def matchCopyrightHashiCorp (l : String) : Bool :=
  containsThen "Copyright".data "HashiCorp".data l.data

/-- Compiled form of the third-party pattern `Copyright.*Oracle`. -/
def matchCopyrightOracle (l : String) : Bool :=
  containsThen "Copyright".data "Oracle".data l.data

/-- The configuration of the repository's `TestFixer_fixFile` unit test. -/
def fixerTestConfig : Config :=
  { Copyright := { Holder := "IBM Corp.", StartYear := 2014, CurrentYear := 2025,
                   Format := "Copyright {{.Holder}} {{.StartYear}}, {{.CurrentYear}}" }
    License := { Enabled := true, Identifier := "MPL-2.0",
                 Format := "SPDX-License-Identifier: {{.Identifier}}" }
    Files := { Extensions := [], SmartExtensions := [], SmartExtensionIndicators := [],
               IgnorePatterns := [], IncludePaths := [], ExcludePaths := [],
               CommentStyles := [(".go", "//"), (".sh", "#")], BelowFrontmatter := [],
               PlacementExceptions := ⟨false, false, []⟩, GitTracked := false }
    Detection := { SkipGenerated := true, GeneratedPatterns := [matchCodeGenerated],
                   ReplacePatterns := [matchCopyrightHashiCorp], MaxScanLines := 20,
                   RequireAtTop := true }
    ThirdParty := { Action := "above", Patterns := [matchCopyrightOracle] } }

/-- Compiled form of a replace pattern `Copyright` (matches every line
containing the literal). -/
def matchCopyrightLit (l : String) : Bool := goContains l "Copyright"

/-- Compiled form of a third-party pattern `Oracle`. -/
def matchOracleLit (l : String) : Bool := goContains l "Oracle"

/-- A configuration whose replace pattern also matches the canonical header
itself: holder `A`, format `Copyright {{.Holder}} {{.CurrentYear}}`, license
disabled, replace pattern `Copyright`, third-party pattern `Oracle` with
action `leave`. -/
def selfReplaceConfig : Config :=
  { Copyright := { Holder := "A", StartYear := 0, CurrentYear := 2025,
                   Format := "Copyright {{.Holder}} {{.CurrentYear}}" }
    License := { Enabled := false, Identifier := "", Format := "" }
    Files := { Extensions := [], SmartExtensions := [], SmartExtensionIndicators := [],
               IgnorePatterns := [], IncludePaths := [], ExcludePaths := [],
               CommentStyles := [], BelowFrontmatter := [],
               PlacementExceptions := ⟨false, false, []⟩, GitTracked := false }
    Detection := { SkipGenerated := false, GeneratedPatterns := [],
                   ReplacePatterns := [matchCopyrightLit], MaxScanLines := 0,
                   RequireAtTop := false }
    ThirdParty := { Action := "leave", Patterns := [matchOracleLit] } }

/-- A file whose line 0 is exactly `selfReplaceConfig`'s canonical header,
followed by a third-party (Oracle) line. -/
def exC2 : String := "// Copyright A 2025\n(c) Oracle\n\npackage main"

/-- A configuration that maps the `yml` comment style to the HTML marker. -/
def yamlHtmlConfig : Config :=
  { Copyright := { Holder := "A", StartYear := 0, CurrentYear := 0,
                   Format := "A: B" }
    License := { Enabled := false, Identifier := "", Format := "" }
    Files := { Extensions := [], SmartExtensions := [], SmartExtensionIndicators := [],
               IgnorePatterns := [], IncludePaths := [], ExcludePaths := [],
               CommentStyles := [("yml", "<!--")], BelowFrontmatter := [],
               PlacementExceptions := ⟨false, false, []⟩, GitTracked := false }
    Detection := { SkipGenerated := false, GeneratedPatterns := [],
                   ReplacePatterns := [], MaxScanLines := 0, RequireAtTop := false }
    ThirdParty := { Action := "leave", Patterns := [] } }

/-- A scoring configuration with two indicators that tie on the same
content pattern. -/
def tieConfig : Config :=
  { Copyright := { Holder := "A", StartYear := 0, CurrentYear := 0, Format := "A" }
    License := { Enabled := false, Identifier := "", Format := "" }
    Files := { Extensions := [], SmartExtensions := [".gtpl"],
               SmartExtensionIndicators :=
                 [⟨".tf", ["resource \""], []⟩, ⟨".md", ["resource \""], []⟩],
               IgnorePatterns := [], IncludePaths := [], ExcludePaths := [],
               CommentStyles := [], BelowFrontmatter := [],
               PlacementExceptions := ⟨false, false, []⟩, GitTracked := false }
    Detection := { SkipGenerated := false, GeneratedPatterns := [],
                   ReplacePatterns := [], MaxScanLines := 0, RequireAtTop := false }
    ThirdParty := { Action := "leave", Patterns := [] } }

/-- A scoring configuration with a strict winner. -/
def scoreConfig : Config :=
  { Copyright := { Holder := "A", StartYear := 0, CurrentYear := 0, Format := "A" }
    License := { Enabled := false, Identifier := "", Format := "" }
    Files := { Extensions := [], SmartExtensions := [".gtpl"],
               SmartExtensionIndicators :=
                 [⟨".tf", ["p"], []⟩, ⟨".md", ["q", "r"], []⟩],
               IgnorePatterns := [], IncludePaths := [], ExcludePaths := [],
               CommentStyles := [], BelowFrontmatter := [],
               PlacementExceptions := ⟨false, false, []⟩, GitTracked := false }
    Detection := { SkipGenerated := false, GeneratedPatterns := [],
                   ReplacePatterns := [], MaxScanLines := 0, RequireAtTop := false }
    ThirdParty := { Action := "leave", Patterns := [] } }

/-- A configuration with frontmatter-bearing extensions, for the placement
claims. -/
def frontmatterConfig : Config :=
  { Copyright := { Holder := "A", StartYear := 0, CurrentYear := 2025,
                   Format := "Copyright {{.Holder}} {{.CurrentYear}}" }
    License := { Enabled := false, Identifier := "", Format := "" }
    Files := { Extensions := [".md"], SmartExtensions := [], SmartExtensionIndicators := [],
               IgnorePatterns := [], IncludePaths := [], ExcludePaths := [],
               CommentStyles := [], BelowFrontmatter := [".md"],
               PlacementExceptions := ⟨false, false, [".md"]⟩, GitTracked := false }
    Detection := { SkipGenerated := false, GeneratedPatterns := [],
                   ReplacePatterns := [], MaxScanLines := 0, RequireAtTop := false }
    ThirdParty := { Action := "leave", Patterns := [] } }

/-! ## Claim C3: replace precedence over third-party classification -/

/-- **C3.** For every configuration and every line, a line matched by a
configured replace pattern is never classified third-party:
`IsThirdPartyCopyright` returns `false` whenever `ShouldReplace` returns
`true`, even when a third-party pattern also matches the line. -/
theorem isThirdParty_replace_precedence (cfg : Config) (line : String)
    (h : ShouldReplace cfg line = true) :
    IsThirdPartyCopyright cfg line = false := by
  simp [IsThirdPartyCopyright, h]

/-- Witness for C3 at the fuzz-test configuration: the line matches both the
replace pattern and the third-party pattern, and is classified replace. -/
theorem isThirdParty_replace_precedence_witness :
    ShouldReplace (createConfigForExtension ".go") "// Copyright c HashiCorp, Inc." = true ∧
    (createConfigForExtension ".go").ThirdParty.Patterns.any
      (fun m => m "// Copyright c HashiCorp, Inc.") = true ∧
    IsThirdPartyCopyright (createConfigForExtension ".go") "// Copyright c HashiCorp, Inc." = false :=
  ⟨by decide, by decide,
    isThirdParty_replace_precedence (createConfigForExtension ".go")
      "// Copyright c HashiCorp, Inc." (by decide)⟩

/-! ## Claim C9: generated files pass through unchanged -/

/-- **C9.** With `skip_generated` enabled, any content whose first line (or
second line, when there are at least two) matches a configured
generated-file pattern is returned by `ProcessContent` unchanged and
without error. -/
theorem processContent_generated_identity (cfg : Config) (content ext : String)
    (m : String → Bool)
    (hskip : cfg.Detection.SkipGenerated = true)
    (hmem : m ∈ cfg.Detection.GeneratedPatterns)
    (hmatch : m ((goSplitLines content).getD 0 "") = true ∨
      (1 < (goSplitLines content).length ∧ m ((goSplitLines content).getD 1 "") = true)) :
    ProcessContent cfg content ext = some content := by
  obtain ⟨l0, rest, hl⟩ := List.exists_cons_of_ne_nil (goSplitLines_ne_nil content)
  have hgen : IsGenerated cfg (goSplitLines content) = true := by
    rw [hl] at hmatch ⊢
    unfold IsGenerated
    rw [hskip]
    simp only [not_true_eq_false, false_or, reduceCtorEq, if_false]
    refine List.any_eq_true.mpr ⟨m, hmem, ?_⟩
    rcases hmatch with h | ⟨hlen, h⟩
    · simp only [List.getD_cons_zero] at h
      simp [h]
    · rcases rest with _ | ⟨l1, rest'⟩
      · simp at hlen
      · simp only [List.getD_cons_succ, List.getD_cons_zero] at h
        simp [h]
  simp [ProcessContent, hgen]

/-- Witness for C9: a generated Go file passes through the fixer-test
configuration unchanged. -/
theorem processContent_generated_identity_witness :
    ProcessContent fixerTestConfig
      "// Code generated by tool; DO NOT EDIT.\npackage main" ".go" =
      some "// Code generated by tool; DO NOT EDIT.\npackage main" :=
  processContent_generated_identity fixerTestConfig
    "// Code generated by tool; DO NOT EDIT.\npackage main" ".go"
    matchCodeGenerated (by decide) (by simp [fixerTestConfig]) (Or.inl (by decide))

/-! ## Claim C10: the "empty file" problem is unreachable -/

/-- **C10.** `checkFile` never reports the problem `"empty file"`: splitting
any byte content on newlines yields at least one line, so the guarding
branch can never be taken, and no other branch produces that message. -/
theorem checkFile_no_empty_file_problem (cfg : Config) (content file : String)
    (iss : Issue) (h : checkFileContent cfg content file = some iss) :
    iss.Problem ≠ "empty file" := by
  have hne : ¬((goSplitLines content).length = 0) := by
    intro h0
    exact goSplitLines_ne_nil content (List.length_eq_zero.mp h0)
  simp only [checkFileContent] at h
  rw [if_neg hne] at h
  iterate 10
    all_goals try (first
      | exact Option.noConfusion h
      | (injection h with h2; subst h2; simp)
      | split at h)

/-- Witness for C10: a header-less file yields the missing-header problem,
and the theorem applies to it. -/
theorem checkFile_no_empty_file_problem_witness :
    checkFileContent fixerTestConfig "package main" "f.go" =
      some ⟨"f.go", "missing or incorrect copyright header"⟩ ∧
    (⟨"f.go", "missing or incorrect copyright header"⟩ : Issue).Problem ≠ "empty file" :=
  ⟨by decide,
    checkFile_no_empty_file_problem fixerTestConfig "package main" "f.go"
      ⟨"f.go", "missing or incorrect copyright header"⟩ (by decide)⟩

/-! ## Claim C8: binary smart-extension files are skipped -/

/-- **C8.** For a file handled as a smart extension whose content has a null
byte among its first 512 bytes (the whole content when shorter),
`DetectSmartExtensionType` returns the empty string and `fixFile` skips the
file: it reports no change and leaves the content untouched (there is no
error channel on this path). -/
theorem smart_binary_skip (cfg : Config) (content file : String)
    (hsmart : (fixFileExt cfg file).2 = true)
    (hnull : Char.ofNat 0 ∈ content.data.take 512) :
    DetectSmartExtensionType cfg content file = "" ∧
    fixFileContent cfg content file = (false, content) := by
  have htake : content.data.take (min content.data.length 512) = content.data.take 512 := by
    rcases Nat.le_total content.data.length 512 with hle | hle
    · rw [Nat.min_eq_left hle, List.take_length, List.take_of_length_le hle]
    · rw [Nat.min_eq_right hle]
  have hdet : DetectSmartExtensionType cfg content file = "" := by
    simp only [DetectSmartExtensionType, htake]
    rw [if_pos]
    exact List.any_eq_true.mpr ⟨Char.ofNat 0, hnull, by simp⟩
  refine ⟨hdet, ?_⟩
  simp only [fixFileContent]
  split
  · rfl
  · rw [if_pos ⟨hsmart, hdet⟩]

/-- Witness for C8: a `.gtpl` file whose second byte is null is skipped. -/
theorem smart_binary_skip_witness :
    DetectSmartExtensionType tieConfig "a\x00b" "x.gtpl" = "" ∧
    fixFileContent tieConfig "a\x00b" "x.gtpl" = (false, "a\x00b") :=
  smart_binary_skip tieConfig "a\x00b" "x.gtpl" (by decide) (by decide)

/-! ## Claim C7: YAML colon quoting -/

/-- Counterexample to C7 as stated: when the configured comment style for
`yml` is the HTML marker, a colon-bearing text is emitted in the HTML
branch, `<!-- text -->`, not quoted after the prefix as the claim requires. -/
theorem yaml_quoting_counterexample :
    goContains "A: B" ":" = true ∧
    commentPrefixFor yamlHtmlConfig ".yml" = "<!--" ∧
    GetCopyrightHeader yamlHtmlConfig ".yml" = some "<!-- A: B -->" ∧
    ("<!-- A: B -->" : String) ≠ "<!--" ++ " \"" ++ "A: B" ++ "\"" := by
  refine ⟨by decide, by decide, by decide, by decide⟩

/-- **C7 (amended).** For `.yml`/`.yaml`, *provided the resolved comment
prefix is neither the HTML marker `<!--` nor the block marker `/**` (whose
branches take precedence; the fallback prefix for YAML is `#`)*: when the
template-expanded text contains a colon both header renderers wrap it in
double quotes after the prefix, and otherwise emit it unquoted after the
prefix.  `GetCopyrightHeader` and `GetLicenseHeader` (when the license is
enabled) both emit through this wrapping. -/
theorem yaml_quoting_of_line_prefix (cfg : Config) (ext text : String)
    (hext : ext = ".yml" ∨ ext = ".yaml")
    (hhtml : commentPrefixFor cfg ext ≠ "<!--")
    (hblock : commentPrefixFor cfg ext ≠ "/**") :
    (wrapHeader cfg ext text =
      if goContains text ":" then commentPrefixFor cfg ext ++ " \"" ++ text ++ "\""
      else commentPrefixFor cfg ext ++ " " ++ text) ∧
    (∀ t, expandTemplate (copyrightFields cfg.Copyright) cfg.Copyright.Format = some t →
      GetCopyrightHeader cfg ext = some (wrapHeader cfg ext t)) ∧
    (∀ t, cfg.License.Enabled = true →
      expandTemplate (licenseFields cfg.License) cfg.License.Format = some t →
      GetLicenseHeader cfg ext = some (wrapHeader cfg ext t)) := by
  refine ⟨?_, ?_, ?_⟩
  · unfold wrapHeader
    rw [if_neg hhtml, if_neg hblock]
    by_cases hc : goContains text ":" = true
    · rw [if_pos ⟨hext, hc⟩, if_pos hc]
    · rw [if_neg (fun hand => hc hand.2), if_neg hc]
  · intro t ht
    unfold GetCopyrightHeader
    rw [ht]
  · intro t hen ht
    unfold GetLicenseHeader
    rw [hen, ht]
    simp

/-- Witness for C7's amended statement at the fuzz configuration (fallback
YAML prefix `#`) with a colon-bearing and a colon-free text. -/
theorem yaml_quoting_of_line_prefix_witness :
    wrapHeader (createConfigForExtension ".go") ".yml" "a: b" = "# \"a: b\"" ∧
    wrapHeader (createConfigForExtension ".go") ".yml" "a b" = "# a b" := by
  have h := yaml_quoting_of_line_prefix (createConfigForExtension ".go") ".yml" "a: b"
    (Or.inl rfl) (by decide) (by decide)
  have h2 := yaml_quoting_of_line_prefix (createConfigForExtension ".go") ".yml" "a b"
    (Or.inl rfl) (by decide) (by decide)
  exact ⟨by rw [h.1]; decide, by rw [h2.1]; decide⟩

/-! ## Claim C4: frontmatter advances the placement offset -/

theorem getD_drop (l : List String) (m k : Nat) :
    (l.drop m).getD k "" = l.getD (m + k) "" := by
  simp [List.getD_eq_getElem?_getD, List.getElem?_drop]

theorem findFMClose_none (ls : List String) (b : Nat)
    (h : ∀ k, k < ls.length → goTrim (ls.getD k "") ≠ "---") :
    findFMClose ls b = none := by
  induction ls generalizing b with
  | nil => rfl
  | cons l t ih =>
    have h0 := h 0 (by simp)
    simp only [List.getD_cons_zero] at h0
    simp only [findFMClose, if_neg h0]
    exact ih (b + 1) (fun k hk => by
      have := h (k + 1) (by simpa using Nat.succ_lt_succ hk)
      simpa using this)

theorem findFMClose_hit (ls : List String) (b k : Nat) (hk : k < ls.length)
    (hhit : goTrim (ls.getD k "") = "---")
    (hmin : ∀ k', k' < k → goTrim (ls.getD k' "") ≠ "---") :
    findFMClose ls b = some (b + k) := by
  induction ls generalizing b k with
  | nil => simp at hk
  | cons l t ih =>
    cases k with
    | zero =>
      simp only [List.getD_cons_zero] at hhit
      simp [findFMClose, hhit]
    | succ k' =>
      have h0 : goTrim l ≠ "---" := by
        have := hmin 0 (Nat.succ_pos _)
        simpa using this
      simp only [findFMClose, if_neg h0]
      have := ih (b + 1) k' (by simpa using hk) (by simpa using hhit)
        (fun k'' hk'' => by
          have := hmin (k'' + 1) (Nat.succ_lt_succ hk'')
          simpa using this)
      rw [this]
      congr 1
      omega

/-- **C4.** (The deciding function `getFrontmatterEndNew` is absent from the
sources and is modelled from the spec.)  For every line list, configuration
and filename whose extension is in the configured frontmatter list: with
`off` the offset after the shebang step, if the line at `off` is exactly
`---` after trimming and a closing `---` exists, the `fixFile` offset update
`if fmEnd > off then fmEnd else off` advances to the index just after the
first closing `---`; when no closing `---` exists the offset is unchanged. -/
theorem frontmatter_offset_advance (lines : List String) (cfg : Config) (file : String)
    (off : Nat) (hoff : off = if hasShebang lines then 1 else 0)
    (hext : (cfg.Files.BelowFrontmatter.find? (fun e => goHasSuffix file e)).isSome = true) :
    ((off < lines.length ∧ goTrim (lines.getD off "") = "---") →
      ∀ j, off < j → j < lines.length → goTrim (lines.getD j "") = "---" →
      (∀ k, off < k → k < j → goTrim (lines.getD k "") ≠ "---") →
      (if getFrontmatterEndNew lines cfg file > off then getFrontmatterEndNew lines cfg file
       else off) = j + 1) ∧
    ((∀ j, off < j → j < lines.length → goTrim (lines.getD j "") ≠ "---") →
      (if getFrontmatterEndNew lines cfg file > off then getFrontmatterEndNew lines cfg file
       else off) = off) := by
  obtain ⟨e, he⟩ := Option.isSome_iff_exists.mp hext
  constructor
  · rintro ⟨hlt, hdash⟩ j hoffj hjlen hjdash hjmin
    have hfm : getFrontmatterEndNew lines cfg file = j + 1 := by
      unfold getFrontmatterEndNew
      rw [← hoff]
      simp only [he]
      rw [if_pos ⟨hlt, hdash⟩]
      have hfind : findFMClose (lines.drop (off + 1)) (off + 1) = some j := by
        have hk : j - (off + 1) < (lines.drop (off + 1)).length := by
          rw [List.length_drop]; omega
        have := findFMClose_hit (lines.drop (off + 1)) (off + 1) (j - (off + 1)) hk
          (by rw [getD_drop, show off + 1 + (j - (off + 1)) = j from by omega]; exact hjdash)
          (fun k' hk' => by
            rw [getD_drop]
            exact hjmin (off + 1 + k') (by omega) (by omega))
        rw [this, show off + 1 + (j - (off + 1)) = j from by omega]
      rw [hfind]
    rw [hfm, if_pos (by omega)]
  · intro hnone
    have hfm : getFrontmatterEndNew lines cfg file = 0 := by
      unfold getFrontmatterEndNew
      rw [← hoff]
      simp only [he]
      by_cases hcond : off < lines.length ∧ goTrim (lines.getD off "") = "---"
      · rw [if_pos hcond]
        have hfind : findFMClose (lines.drop (off + 1)) (off + 1) = none :=
          findFMClose_none _ _ (fun k hk => by
            rw [getD_drop]
            rw [List.length_drop] at hk
            exact hnone (off + 1 + k) (by omega) (by omega))
        rw [hfind]
      · rw [if_neg hcond]
    rw [hfm]
    simp

/-- Witness for C4: a shebang file with a frontmatter block closing at line 3
advances the offset to 4; the same file with the closing line altered leaves
the offset at 1. -/
theorem frontmatter_offset_advance_witness :
    (if getFrontmatterEndNew ["#!/x", "---", "a", "---", "b"] frontmatterConfig "doc.md" > 1
     then getFrontmatterEndNew ["#!/x", "---", "a", "---", "b"] frontmatterConfig "doc.md"
     else 1) = 4 ∧
    (if getFrontmatterEndNew ["#!/x", "---", "a", "b"] frontmatterConfig "doc.md" > 1
     then getFrontmatterEndNew ["#!/x", "---", "a", "b"] frontmatterConfig "doc.md"
     else 1) = 1 :=
  ⟨(frontmatter_offset_advance ["#!/x", "---", "a", "---", "b"] frontmatterConfig "doc.md"
      1 (by decide) (by decide)).1 (by decide) 3 (by decide) (by decide) (by decide)
      (by intro k hk1 hk2; interval_cases k; all_goals decide),
   (frontmatter_offset_advance ["#!/x", "---", "a", "b"] frontmatterConfig "doc.md"
      1 (by decide) (by decide)).2
      (by
        intro j hj1 hj2
        have hj4 : j < 4 := by simpa using hj2
        interval_cases j <;> decide)⟩

/-! ## Claim C5: scoring classifier -/

/-- Counterexample to C5 as stated: two indicators tie with positive score,
and the classifier returns the first-seen tied extension `.tf`, not the
default `.go` the claim requires for ties. -/
theorem detectByScoring_tie_counterexample :
    buildScores tieConfig "resource \"x\"" "f" = [(".tf", 1), (".md", 1)] ∧
    detectByScoring tieConfig "resource \"x\"" "f" = ".tf" ∧
    (".tf" : String) ≠ ".go" :=
  ⟨by decide, by decide, by decide⟩

theorem foldScores_skip (l : List (String × Nat)) (m : Nat) (b : String)
    (h : ∀ p ∈ l, p.2 ≤ m) :
    l.foldl (fun acc p => if p.2 > acc.1 then (p.2, p.1) else acc) (m, b) = (m, b) := by
  induction l with
  | nil => rfl
  | cons p l ih =>
    have hp := h p (by simp)
    simp only [List.foldl_cons, if_neg (by omega : ¬p.2 > m)]
    exact ih (fun q hq => h q (by simp [hq]))

theorem foldScores_max (l₁ : List (String × Nat)) (e : String) (s : Nat)
    (l₂ : List (String × Nat)) (m : Nat) (b : String) (hm : m < s)
    (h₁ : ∀ p ∈ l₁, p.2 < s) (h₂ : ∀ p ∈ l₂, p.2 < s) :
    (l₁ ++ (e, s) :: l₂).foldl
      (fun acc p => if p.2 > acc.1 then (p.2, p.1) else acc) (m, b) = (s, e) := by
  induction l₁ generalizing m b with
  | nil =>
    simp only [List.nil_append, List.foldl_cons, if_pos (by omega : s > m)]
    exact foldScores_skip l₂ s e (fun q hq => Nat.le_of_lt (h₂ q hq))
  | cons p l₁ ih =>
    have hp := h₁ p (by simp)
    simp only [List.cons_append, List.foldl_cons]
    by_cases hcmp : p.2 > m
    · rw [if_pos hcmp]
      exact ih p.2 p.1 hp (fun q hq => h₁ q (by simp [hq]))
    · rw [if_neg hcmp]
      exact ih m b hm (fun q hq => h₁ q (by simp [hq]))

/-- **C5 (amended).** The scoring classifier returns the extension with the
strictly highest score, and returns the default `.go` when every score is
zero; but a tie for the highest positive score returns the first tied entry
in map-iteration order (modelled as insertion order), not the default
`.go`. -/
theorem detectByScoring_strict_max_or_zero (cfg : Config) (content filename : String) :
    (∀ l₁ e s l₂, buildScores cfg content filename = l₁ ++ (e, s) :: l₂ →
      (∀ p ∈ l₁ ++ l₂, p.2 < s) → 0 < s →
      detectByScoring cfg content filename = e) ∧
    ((∀ p ∈ buildScores cfg content filename, p.2 = 0) →
      detectByScoring cfg content filename = ".go") := by
  constructor
  · intro l₁ e s l₂ hsplit hbound hpos
    simp only [detectByScoring]
    rw [hsplit]
    rw [foldScores_max l₁ e s l₂ 0 ".go" hpos
      (fun p hp => hbound p (by simp [hp]))
      (fun p hp => hbound p (by simp [hp]))]
  · intro hzero
    simp only [detectByScoring]
    rw [foldScores_skip _ 0 ".go" (fun p hp => Nat.le_of_eq (hzero p hp))]

/-- Witness for C5's amended statement: a strict winner is returned. -/
theorem detectByScoring_strict_max_or_zero_witness :
    detectByScoring scoreConfig "q r x" "f" = ".md" :=
  (detectByScoring_strict_max_or_zero scoreConfig "q r x" "f").1
    [(".tf", 0)] ".md" 2 [] (by decide) (by decide) (by decide)

/-! ## Claim C6: `d/*` accepts exactly the paths `d/**` accepts -/

/-- Splitting distributes over an inserted separator, with no condition on
the left part. -/
theorem splitCh_insert_sep (sep : Char) (xs ys : List Char) :
    splitCh sep (xs ++ sep :: ys) = splitCh sep xs ++ splitCh sep ys := by
  induction xs with
  | nil =>
    simp only [List.nil_append, splitCh]
    rcases h : splitCh sep ys with _ | ⟨l, ls⟩
    · exact absurd h (splitCh_ne_nil sep ys)
    · simp [splitCh]
  | cons c cs ih =>
    simp only [List.cons_append, splitCh, List.append_eq]
    rw [ih]
    rcases h : splitCh sep cs with _ | ⟨l, ls⟩
    · exact absurd h (splitCh_ne_nil sep cs)
    · by_cases hc : c = sep <;> simp [hc]

/-- A `*` segment matches every segment. -/
theorem matchSeg_star (n : List Char) : matchSeg ['*'] n = true := by
  induction n with
  | nil => simp [matchSeg]
  | cons c cs ih => simp [matchSeg, ih]

/-- A lone `**` pattern matches every path. -/
theorem matchSegs_doublestar_all (N : List (List Char)) :
    matchSegs [['*', '*']] N = true := by
  induction N with
  | nil => simp [matchSegs]
  | cons n ns ih => simp [matchSegs, ih]

/-- Pushing a path under a leading `**` segment. -/
theorem matchSegs_cons_doublestar_of (ps N : List (List Char))
    (h : matchSegs ps N = true) : matchSegs (['*', '*'] :: ps) N = true := by
  cases N with
  | nil => simp [matchSegs, h]
  | cons x xs => simp [matchSegs, h]

/-- Appending `**` to a matching pattern absorbs any further path
segments. -/
theorem matchSegs_append_doublestar (n : Nat) :
    ∀ P N : List (List Char), P.length + N.length ≤ n → matchSegs P N = true →
      ∀ M, matchSegs (P ++ [['*', '*']]) (N ++ M) = true := by
  induction n with
  | zero =>
    intro P N hle h M
    have hP : P = [] := List.length_eq_zero.mp (by omega)
    have hN : N = [] := List.length_eq_zero.mp (by omega)
    subst hP; subst hN
    exact matchSegs_doublestar_all M
  | succ k ih =>
    intro P N hle h M
    cases P with
    | nil =>
      cases N with
      | nil => exact matchSegs_doublestar_all M
      | cons x xs => simp [matchSegs] at h
    | cons p ps =>
      simp only [List.cons_append] at h ⊢
      cases N with
      | nil =>
        by_cases hp : p = ['*', '*']
        · subst hp
          simp only [matchSegs, if_pos rfl, if_true, Bool.or_false] at h
          have := ih ps [] (by simp at hle ⊢; omega) h M
          simp only [List.nil_append] at this ⊢
          exact matchSegs_cons_doublestar_of _ _ this
        · simp [matchSegs, hp] at h
      | cons x xs =>
        by_cases hp : p = ['*', '*']
        · subst hp
          simp only [matchSegs, if_pos rfl, if_true, Bool.or_eq_true] at h
          rcases h with h1 | h2
          · have := ih ps (x :: xs) (by simp at hle ⊢; omega) h1 M
            exact matchSegs_cons_doublestar_of _ _ this
          · simp only [List.cons_append, matchSegs, if_pos rfl, if_true, Bool.or_eq_true]
            right
            have := ih (['*', '*'] :: ps) xs (by simp at hle ⊢; omega) h2 M
            simpa using this
        · simp only [matchSegs, if_neg hp, Bool.and_eq_true] at h
          simp only [List.cons_append, matchSegs, if_neg hp, Bool.and_eq_true]
          exact ⟨h.1, ih ps xs (by simp at hle ⊢; omega) h.2 M⟩

/-- Every path matched by `P ++ [*]` is matched by `P ++ [**]`. -/
theorem matchSegs_star_imp_doublestar (n : Nat) :
    ∀ P N : List (List Char), P.length + N.length ≤ n →
      matchSegs (P ++ [['*']]) N = true → matchSegs (P ++ [['*', '*']]) N = true := by
  induction n with
  | zero =>
    intro P N hle h
    have hP : P = [] := List.length_eq_zero.mp (by omega)
    have hN : N = [] := List.length_eq_zero.mp (by omega)
    subst hP; subst hN
    simp [matchSegs] at h
  | succ k ih =>
    intro P N hle h
    cases P with
    | nil =>
      simp only [List.nil_append] at h ⊢
      cases N with
      | nil => simp [matchSegs] at h
      | cons x xs => exact matchSegs_doublestar_all (x :: xs)
    | cons p ps =>
      simp only [List.cons_append] at h ⊢
      cases N with
      | nil =>
        by_cases hp : p = ['*', '*']
        · subst hp
          simp only [matchSegs, if_pos rfl, if_true, Bool.or_false] at h
          exact matchSegs_cons_doublestar_of _ _ (ih ps [] (by simp at hle ⊢; omega) h)
        · simp [matchSegs, hp] at h
      | cons x xs =>
        by_cases hp : p = ['*', '*']
        · subst hp
          simp only [matchSegs, if_pos rfl, if_true, Bool.or_eq_true] at h
          rcases h with h1 | h2
          · exact matchSegs_cons_doublestar_of _ _
              (ih ps (x :: xs) (by simp at hle ⊢; omega) h1)
          · simp only [matchSegs, if_pos rfl, if_true, Bool.or_eq_true]
            right
            have := ih (['*', '*'] :: ps) xs (by simp at hle ⊢; omega)
              (by simpa using h2)
            simpa using this
        · simp only [matchSegs, if_neg hp, Bool.and_eq_true] at h ⊢
          exact ⟨h.1, ih ps xs (by simp at hle ⊢; omega) h.2⟩

/-- The glob match of a `/*` pattern implies that of the `/**` pattern. -/
theorem doublestarMatch_star_imp (d p : String) :
    doublestarMatch (d ++ "/*") p = true → doublestarMatch (d ++ "/**") p = true := by
  intro h
  unfold doublestarMatch at h ⊢
  have h1 : (d ++ "/*").data = d.data ++ '/' :: ['*'] := rfl
  have h2 : (d ++ "/**").data = d.data ++ '/' :: ['*', '*'] := rfl
  rw [h1, splitCh_insert_sep] at h
  rw [h2, splitCh_insert_sep]
  have hs1 : splitCh '/' ['*'] = [['*']] := rfl
  have hs2 : splitCh '/' ['*', '*'] = [['*', '*']] := rfl
  rw [hs1] at h
  rw [hs2]
  exact matchSegs_star_imp_doublestar
    ((splitCh '/' d.data).length + (splitCh '/' p.data).length)
    (splitCh '/' d.data) (splitCh '/' p.data) (by omega) h

/-- **C6.** For every directory prefix `d` and path `p`, a pattern ending in
`/*` accepts exactly the same paths as the same pattern ending in `/**`:
`matchesPath (d ++ "/*") p = matchesPath (d ++ "/**") p`. -/
theorem matchesPath_star_eq_doublestar (d p : String) :
    matchesPath (d ++ "/*") p = matchesPath (d ++ "/**") p := by
  have hcut1 : goCutSuffix (d ++ "/*") "/*" = some d := by
    unfold goCutSuffix
    rw [if_pos (show goHasSuffix (d ++ "/*") "/*" = true from
      List.isSuffixOf_iff_suffix.mpr ⟨d.data, rfl⟩)]
    have hlen : (d ++ "/*").data.length - ("/*" : String).data.length = d.data.length := by
      show (d.data ++ ['/', '*']).length - 2 = d.data.length
      simp
    rw [hlen]
    have htake : (d ++ "/*").data.take d.data.length = d.data := by
      show (d.data ++ ['/', '*']).take d.data.length = d.data
      exact List.take_left _ _
    rw [htake]
  have hcut2 : goCutSuffix (d ++ "/**") "/*" = none := by
    unfold goCutSuffix
    rw [if_neg]
    intro hsuf
    have hsuffix : (['/', '*'] : List Char) <:+ d.data ++ ['/', '*', '*'] := by
      simpa [goHasSuffix] using hsuf
    obtain ⟨t, ht⟩ := hsuffix
    have hrev := congrArg List.reverse ht
    simp [List.reverse_append] at hrev
  have hsuf2 : goHasSuffix (d ++ "/**") "/**" = true := by
    unfold goHasSuffix
    exact List.isSuffixOf_iff_suffix.mpr ⟨d.data, rfl⟩
  unfold matchesPath
  simp only [hcut1, hcut2]
  by_cases hA : doublestarMatch (d ++ "/*") p = true
  · rw [if_pos hA, if_pos (doublestarMatch_star_imp d p hA)]
  · rw [if_neg hA]
    by_cases hB : doublestarMatch (d ++ "/**") p = true
    · rw [if_pos hB, hB]
    · rw [if_neg hB, if_neg (by simp [hsuf2])]
      rw [Bool.not_eq_true] at hB
      exact hB

/-! ## Claim C2: already-correct short-circuit of `fixFile` -/

/-- Counterexample to C2 as stated: the file's line 0 is the exact canonical
copyright line (license disabled) and it sits inside the header window, yet
`fixFile` reports a change and rewrites the file — the canonical line is
captured by the replace pattern before it can be recognized as correct, and
the collected third-party line forces the rewrite. -/
theorem fixFile_already_correct_counterexample :
    GetCopyrightHeader selfReplaceConfig ".go" = some "// Copyright A 2025" ∧
    fixFileEffExt selfReplaceConfig exC2 "x.go" = ".go" ∧
    selfReplaceConfig.License.Enabled = false ∧
    fixFileStartLine selfReplaceConfig (goSplitLines exC2)
      (fixFileExt selfReplaceConfig "x.go").2 ".go" "x.go" = 0 ∧
    scanLimit selfReplaceConfig 0 (goSplitLines exC2).length = 4 ∧
    (goSplitLines exC2).getD 0 "" = "// Copyright A 2025" ∧
    (fixFileContent selfReplaceConfig exC2 "x.go").1 = true ∧
    (fixFileContent selfReplaceConfig exC2 "x.go").2 ≠ exC2 := by
  refine ⟨by decide, by decide, by decide, by decide, by decide, by decide, ?_, ?_⟩ <;> decide

/-- An element of the header window, indexed from the full line list. -/
theorem window_mem (lines : List String) (s m i : Nat) (hsi : s ≤ i) (him : i < m)
    (hml : m ≤ lines.length) :
    lines.getD i "" ∈ (lines.drop s).take (m - s) := by
  have hi : i - s < ((lines.drop s).take (m - s)).length := by
    simp only [List.length_take, List.length_drop]
    omega
  have hget : ((lines.drop s).take (m - s)).getD (i - s) "" = lines.getD i "" := by
    rw [List.getD_eq_getElem?_getD, List.getElem?_take_of_lt (by omega : i - s < m - s),
      List.getElem?_drop, List.getD_eq_getElem?_getD]
    congr 2
    omega
  have hmem : ((lines.drop s).take (m - s)).getD (i - s) "" ∈
      (lines.drop s).take (m - s) := by
    rw [List.getD_eq_getElem?_getD, List.getElem?_eq_getElem hi]
    simp only [Option.getD_some]
    exact List.getElem_mem hi
  rw [← hget]
  exact hmem

/-- `scanLimit` never exceeds the line count. -/
theorem scanLimit_le (cfg : Config) (s len : Nat) : scanLimit cfg s len ≤ len := by
  unfold scanLimit
  split
  · exact Nat.min_le_right _ _
  · exact Nat.le_refl _

/-- The scan never unsets `hasCorrectCopyright`. -/
theorem scanStep_mono_correct (cfg : Config) (ext cH lH pfx : String) (st : ScanState)
    (line : String) (h : st.hasCorrectCopyright = true) :
    (scanStep cfg ext cH lH pfx st line).hasCorrectCopyright = true := by
  unfold scanStep
  repeat' split
  all_goals try simp [h]

/-- The scan never unsets `hasCorrectLicense`. -/
theorem scanStep_mono_license (cfg : Config) (ext cH lH pfx : String) (st : ScanState)
    (line : String) (h : st.hasCorrectLicense = true) :
    (scanStep cfg ext cH lH pfx st line).hasCorrectLicense = true := by
  unfold scanStep
  repeat' split
  all_goals try simp [h]

theorem scanFold_mono_correct (cfg : Config) (ext cH lH pfx : String) (l : List String)
    (st : ScanState) (h : st.hasCorrectCopyright = true) :
    (l.foldl (scanStep cfg ext cH lH pfx) st).hasCorrectCopyright = true := by
  induction l generalizing st with
  | nil => exact h
  | cons a l ih => exact ih _ (scanStep_mono_correct cfg ext cH lH pfx st a h)

theorem scanFold_mono_license (cfg : Config) (ext cH lH pfx : String) (l : List String)
    (st : ScanState) (h : st.hasCorrectLicense = true) :
    (l.foldl (scanStep cfg ext cH lH pfx) st).hasCorrectLicense = true := by
  induction l generalizing st with
  | nil => exact h
  | cons a l ih => exact ih _ (scanStep_mono_license cfg ext cH lH pfx st a h)

/-- A window line that is exactly the canonical copyright (trimmed), not a
replace match, and either own-shaped or not third-party, sets
`hasCorrectCopyright`. -/
theorem scanStep_sets_correct (cfg : Config) (ext cH lH pfx : String) (st : ScanState)
    (line : String) (hsr : ShouldReplace cfg line = false)
    (heq : goTrim line = goTrim cH)
    (hcase : IsOwnCopyrightLine cfg line ext = true ∨
      IsThirdPartyCopyright cfg line = false) :
    (scanStep cfg ext cH lH pfx st line).hasCorrectCopyright = true := by
  unfold scanStep
  rw [hsr]
  rcases hcase with hown | htp
  · simp only [Bool.false_eq_true, if_false, hown, if_true, heq]
    try simp
  · by_cases hown : IsOwnCopyrightLine cfg line ext = true
    · simp only [Bool.false_eq_true, if_false, hown, if_true, heq]
      try simp
    · simp only [Bool.false_eq_true, if_false, hown, htp, heq, if_true]
      try simp

/-- A window line that is exactly the canonical license (trimmed), escapes
the earlier classifications and differs from the canonical copyright, sets
`hasCorrectLicense`. -/
theorem scanStep_sets_license (cfg : Config) (ext cH lH pfx : String) (st : ScanState)
    (line : String) (hsr : ShouldReplace cfg line = false)
    (hown : IsOwnCopyrightLine cfg line ext = false)
    (htp : IsThirdPartyCopyright cfg line = false)
    (hnc : goTrim line ≠ goTrim cH)
    (hlne : lH ≠ "") (heq : goTrim line = goTrim lH) :
    (scanStep cfg ext cH lH pfx st line).hasCorrectLicense = true := by
  unfold scanStep
  rw [hsr]
  simp only [Bool.false_eq_true, if_false, hown, htp, if_neg hnc]
  rw [if_pos ⟨hlne, heq⟩]

theorem scanFold_hit_correct (cfg : Config) (ext cH lH pfx : String) (l : List String)
    (st : ScanState) (line : String) (hmem : line ∈ l)
    (hsr : ShouldReplace cfg line = false) (heq : goTrim line = goTrim cH)
    (hcase : IsOwnCopyrightLine cfg line ext = true ∨
      IsThirdPartyCopyright cfg line = false) :
    (l.foldl (scanStep cfg ext cH lH pfx) st).hasCorrectCopyright = true := by
  induction l generalizing st with
  | nil => simp at hmem
  | cons a l ih =>
    rcases List.mem_cons.mp hmem with rfl | hmem2
    · exact scanFold_mono_correct cfg ext cH lH pfx l _
        (scanStep_sets_correct cfg ext cH lH pfx st line hsr heq hcase)
    · exact ih _ hmem2

theorem scanFold_hit_license (cfg : Config) (ext cH lH pfx : String) (l : List String)
    (st : ScanState) (line : String) (hmem : line ∈ l)
    (hsr : ShouldReplace cfg line = false)
    (hown : IsOwnCopyrightLine cfg line ext = false)
    (htp : IsThirdPartyCopyright cfg line = false)
    (hnc : goTrim line ≠ goTrim cH)
    (hlne : lH ≠ "") (heq : goTrim line = goTrim lH) :
    (l.foldl (scanStep cfg ext cH lH pfx) st).hasCorrectLicense = true := by
  induction l generalizing st with
  | nil => simp at hmem
  | cons a l ih =>
    rcases List.mem_cons.mp hmem with rfl | hmem2
    · exact scanFold_mono_license cfg ext cH lH pfx l _
        (scanStep_sets_license cfg ext cH lH pfx st line hsr hown htp hnc hlne heq)
    · exact ih _ hmem2

/-- **C2 (amended).** If the header window contains the exact canonical
copyright line — *provided that line is not matched by a replace pattern and
is either own-copyright-shaped or not matched by a third-party pattern* —
and, when the license is enabled, the exact canonical license line likewise
escapes the earlier classifications, then `fixFile` reports no change and
leaves the content untouched, regardless of any other findings in the scan. -/
theorem fixFile_already_correct_no_change (cfg : Config) (content file : String)
    (cH lH : String)
    (hcH : GetCopyrightHeader cfg (fixFileEffExt cfg content file) = some cH)
    (hlH : GetLicenseHeader cfg (fixFileEffExt cfg content file) = some lH)
    (H1 : ∃ i,
      fixFileStartLine cfg (goSplitLines content) (fixFileExt cfg file).2
        (fixFileEffExt cfg content file) file ≤ i ∧
      i < scanLimit cfg
        (fixFileStartLine cfg (goSplitLines content) (fixFileExt cfg file).2
          (fixFileEffExt cfg content file) file) (goSplitLines content).length ∧
      goTrim ((goSplitLines content).getD i "") = goTrim cH ∧
      ShouldReplace cfg ((goSplitLines content).getD i "") = false ∧
      (IsOwnCopyrightLine cfg ((goSplitLines content).getD i "")
        (fixFileEffExt cfg content file) = true ∨
       IsThirdPartyCopyright cfg ((goSplitLines content).getD i "") = false))
    (H2 : lH = "" ∨ ∃ j,
      fixFileStartLine cfg (goSplitLines content) (fixFileExt cfg file).2
        (fixFileEffExt cfg content file) file ≤ j ∧
      j < scanLimit cfg
        (fixFileStartLine cfg (goSplitLines content) (fixFileExt cfg file).2
          (fixFileEffExt cfg content file) file) (goSplitLines content).length ∧
      goTrim ((goSplitLines content).getD j "") = goTrim lH ∧
      ShouldReplace cfg ((goSplitLines content).getD j "") = false ∧
      IsOwnCopyrightLine cfg ((goSplitLines content).getD j "")
        (fixFileEffExt cfg content file) = false ∧
      IsThirdPartyCopyright cfg ((goSplitLines content).getD j "") = false ∧
      goTrim ((goSplitLines content).getD j "") ≠ goTrim cH) :
    fixFileContent cfg content file = (false, content) := by
  simp only [fixFileContent]
  split
  · rfl
  split
  · rfl
  simp only [hcH, hlH]
  split
  · rfl
  · rename_i hcond
    refine absurd ⟨?_, ?_⟩ hcond
    · obtain ⟨i, hsi, him, heq, hsr, hcase⟩ := H1
      exact scanFold_hit_correct _ _ _ _ _ _ _ _
        (window_mem _ _ _ i hsi him (scanLimit_le _ _ _)) hsr heq hcase
    · rcases H2 with hl | ⟨j, hsj, hjm, heq, hsr, hown, htp, hnc⟩
      · exact Or.inl hl
      · by_cases hlne : lH = ""
        · exact Or.inl hlne
        · exact Or.inr (scanFold_hit_license _ _ _ _ _ _ _ _
            (window_mem _ _ _ j hsj hjm (scanLimit_le _ _ _)) hsr hown htp hnc hlne heq)

/-- Witness for C2's amended statement: an already-correct file under the
fixer-test configuration is reported unchanged. -/
theorem fixFile_already_correct_no_change_witness :
    fixFileContent fixerTestConfig
      "// Copyright IBM Corp. 2014, 2025\n// SPDX-License-Identifier: MPL-2.0\n\npackage main"
      "correct.go" =
    (false,
      "// Copyright IBM Corp. 2014, 2025\n// SPDX-License-Identifier: MPL-2.0\n\npackage main") :=
  fixFile_already_correct_no_change fixerTestConfig
    "// Copyright IBM Corp. 2014, 2025\n// SPDX-License-Identifier: MPL-2.0\n\npackage main"
    "correct.go" "// Copyright IBM Corp. 2014, 2025" "// SPDX-License-Identifier: MPL-2.0"
    (by decide) (by decide)
    ⟨0, by decide, by decide, by decide, by decide, Or.inl (by decide)⟩
    (Or.inr ⟨1, by decide, by decide, by decide, by decide, by decide, by decide, by decide⟩)

/-! ## Claim C1: idempotence of the normalization engine

The engine is *not* idempotent in general: a removable line that lies just
beyond the first run's scan window can be pulled inside the second run's
window by the inserted header block.  Idempotence does hold whenever the
first run's window covers the whole file; the development below proves
that amended statement for the repository's fuzz-test configurations. -/

/-- The counterexample input: four third-party lines, sixteen neutral
lines, a third-party line at index 20 (outside the 20-line window), and a
tail line. -/
def exC1 : String :=
  goJoinLines (["Copyright A", "Copyright A", "Copyright A", "Copyright A"] ++
    List.replicate 16 "x" ++ ["Copyright B", "y"])

set_option maxRecDepth 100000 in
/-- Counterexample to C1 as stated: with the repository's fuzz-test
configuration for `.go`, applying `ProcessContent` twice differs from
applying it once — the third-party line at index 20 survives the first run
(outside the scan window) but is removed by the second. -/
theorem processContent_not_idempotent_counterexample :
    (ProcessContent (createConfigForExtension ".go") exC1 ".go").bind
      (fun o => ProcessContent (createConfigForExtension ".go") o ".go") ≠
    ProcessContent (createConfigForExtension ".go") exC1 ".go" := by decide

/-- With `skip_generated` off, nothing is ever treated as generated. -/
theorem isGenerated_false_of (cfg : Config) (ls : List String)
    (hskip : cfg.Detection.SkipGenerated = false) : IsGenerated cfg ls = false := by
  unfold IsGenerated
  rw [if_pos (Or.inl (by rw [hskip]; simp))]

/-- Every line produced by splitting is newline-free. -/
theorem goSplitLines_no_newline (s : String) (x : String) (hx : x ∈ goSplitLines s) :
    '\n' ∉ x.data := by
  unfold goSplitLines at hx
  obtain ⟨lc, hlc, rfl⟩ := List.mem_map.mp hx
  exact splitCh_no_sep '\n' s.data lc hlc

/-- Joining the chunks of a split recovers the original list. -/
theorem joinCh_splitCh (sep : Char) (l : List Char) :
    joinCh sep (splitCh sep l) = l := by
  induction l with
  | nil => rfl
  | cons c cs ih =>
    simp only [splitCh]
    rcases h : splitCh sep cs with _ | ⟨x, xs⟩
    · exact absurd h (splitCh_ne_nil sep cs)
    · rw [h] at ih
      by_cases hc : c = sep
      · show joinCh sep (if c = sep then [] :: x :: xs else (c :: x) :: xs) = c :: cs
        rw [if_pos hc]
        show [] ++ sep :: joinCh sep (x :: xs) = c :: cs
        rw [List.nil_append, ih, hc]
      · show joinCh sep (if c = sep then [] :: x :: xs else (c :: x) :: xs) = c :: cs
        rw [if_neg hc]
        cases xs with
        | nil =>
          show c :: x = c :: cs
          simp only [joinCh] at ih
          rw [ih]
        | cons y ys =>
          show (c :: x) ++ sep :: joinCh sep (y :: ys) = c :: cs
          rw [List.cons_append, ← ih]
          rfl

/-- String-level: joining the split lines is the identity. -/
theorem goJoinLines_goSplitLines (s : String) : goJoinLines (goSplitLines s) = s := by
  unfold goJoinLines goSplitLines
  rw [List.map_map]
  have hmap : List.map (String.data ∘ String.mk) (splitCh '\n' s.data) =
      splitCh '\n' s.data := List.map_id'' (fun _ => rfl) _
  rw [hmap, joinCh_splitCh]

/-- String-level: splitting a join recovers the lines, provided they are
newline-free. -/
theorem goSplitLines_goJoinLines (ls : List String) (hne : ls ≠ [])
    (hfree : ∀ x ∈ ls, '\n' ∉ x.data) : goSplitLines (goJoinLines ls) = ls := by
  unfold goJoinLines goSplitLines
  rw [splitCh_joinCh '\n' (ls.map String.data)
    (by simpa using hne)
    (by intro x hx
        obtain ⟨y, hy, rfl⟩ := List.mem_map.mp hx
        exact hfree y hy)]
  rw [List.map_map]
  exact List.map_id'' (fun _ => rfl) _

/-- Appending a newline to a join appends an empty line. -/
theorem goJoinLines_append_newline (ls : List String) (hne : ls ≠ []) :
    goJoinLines ls ++ "\n" = goJoinLines (ls ++ [""]) := by
  show String.mk (joinCh '\n' (ls.map String.data) ++ ['\n']) = _
  unfold goJoinLines
  rw [joinCh_append_sep '\n' (ls.map String.data) (by simpa using hne)]
  congr 1
  simp

/-- A string ending in an appended newline has the newline suffix. -/
theorem goHasSuffix_append_newline (x : String) : goHasSuffix (x ++ "\n") "\n" = true := by
  unfold goHasSuffix
  exact List.isSuffixOf_iff_suffix.mpr ⟨x.data, rfl⟩

/-- A line that some removal branch of `processLoop` captures inside the
header window. -/
def removableLine (cfg : Config) (ext cH lH pfx line : String) : Prop :=
  (goTrim line = goTrim cH ∨ (lH ≠ "" ∧ goTrim line = goTrim lH)) ∨
  IsOwnCopyrightLine cfg line ext = true ∨ isSPDXHeaderLine line pfx = true ∨
  ShouldReplace cfg line = true ∨
  (IsThirdPartyCopyright cfg line = true ∧ cfg.ThirdParty.Action ≠ "leave")

instance (cfg : Config) (ext cH lH pfx line : String) :
    Decidable (removableLine cfg ext cH lH pfx line) := by
  unfold removableLine
  infer_instance

/-- In-window step on a removable line: drop it and set `skipNext`. -/
theorem processLoop_step_removable (cfg : Config) (ext cH lH pfx : String)
    (maxScan : Nat) (line : String) (rest : List String) (i : Nat) (skip : Bool)
    (hi : i < maxScan) (hrem : removableLine cfg ext cH lH pfx line) :
    processLoop cfg ext cH lH pfx maxScan (line :: rest) i skip =
    processLoop cfg ext cH lH pfx maxScan rest (i + 1) true := by
  conv_lhs => rw [processLoop]
  rw [if_pos hi]
  by_cases h1 : goTrim line = goTrim cH ∨ (lH ≠ "" ∧ goTrim line = goTrim lH)
  · rw [if_pos h1]
  rw [if_neg h1]
  by_cases h2 : IsOwnCopyrightLine cfg line ext = true
  · rw [if_pos h2]
  rw [if_neg h2]
  by_cases h3 : isSPDXHeaderLine line pfx = true
  · rw [if_pos h3]
  rw [if_neg h3]
  by_cases h4 : ShouldReplace cfg line = true
  · rw [if_pos h4]
  rw [if_neg h4]
  by_cases h5 : IsThirdPartyCopyright cfg line = true ∧ cfg.ThirdParty.Action ≠ "leave"
  · rw [if_pos h5]
  exact absurd hrem (by unfold removableLine; tauto)

/-- In-window step on a clean line with `skipNext` off (or the line not
blank): keep it. -/
theorem processLoop_step_keep (cfg : Config) (ext cH lH pfx : String)
    (maxScan : Nat) (line : String) (rest : List String) (i : Nat) (skip : Bool)
    (hi : i < maxScan) (hrem : ¬removableLine cfg ext cH lH pfx line)
    (hblank : ¬(skip = true ∧ goTrim line = "")) :
    processLoop cfg ext cH lH pfx maxScan (line :: rest) i skip =
    line :: processLoop cfg ext cH lH pfx maxScan rest (i + 1) false := by
  unfold removableLine at hrem
  conv_lhs => rw [processLoop]
  rw [if_pos hi, if_neg (fun h => hrem (Or.inl h)),
    if_neg (fun h => hrem (Or.inr (Or.inl h))),
    if_neg (fun h => hrem (Or.inr (Or.inr (Or.inl h)))),
    if_neg (fun h => hrem (Or.inr (Or.inr (Or.inr (Or.inl h))))),
    if_neg (fun h => hrem (Or.inr (Or.inr (Or.inr (Or.inr h))))),
    if_neg hblank]

/-- In-window step on a clean blank line with `skipNext` on: drop it and
clear `skipNext`. -/
theorem processLoop_step_blankskip (cfg : Config) (ext cH lH pfx : String)
    (maxScan : Nat) (line : String) (rest : List String) (i : Nat)
    (hi : i < maxScan) (hrem : ¬removableLine cfg ext cH lH pfx line)
    (hblank : goTrim line = "") :
    processLoop cfg ext cH lH pfx maxScan (line :: rest) i true =
    processLoop cfg ext cH lH pfx maxScan rest (i + 1) false := by
  unfold removableLine at hrem
  conv_lhs => rw [processLoop]
  rw [if_pos hi, if_neg (fun h => hrem (Or.inl h)),
    if_neg (fun h => hrem (Or.inr (Or.inl h))),
    if_neg (fun h => hrem (Or.inr (Or.inr (Or.inl h)))),
    if_neg (fun h => hrem (Or.inr (Or.inr (Or.inr (Or.inl h))))),
    if_neg (fun h => hrem (Or.inr (Or.inr (Or.inr (Or.inr h))))),
    if_pos ⟨rfl, hblank⟩]

/-- Out-of-window step: keep the line and clear `skipNext`. -/
theorem processLoop_step_out (cfg : Config) (ext cH lH pfx : String)
    (maxScan : Nat) (line : String) (rest : List String) (i : Nat) (skip : Bool)
    (hi : ¬i < maxScan) :
    processLoop cfg ext cH lH pfx maxScan (line :: rest) i skip =
    line :: processLoop cfg ext cH lH pfx maxScan rest (i + 1) false := by
  conv_lhs => rw [processLoop]
  rw [if_neg hi]

/-- Inside a window that covers the whole remaining input, every kept line
is clean. -/
theorem processLoop_clean (cfg : Config) (ext cH lH pfx : String) (maxScan : Nat) :
    ∀ (ls : List String) (i : Nat) (skip : Bool), i + ls.length ≤ maxScan →
      ∀ x ∈ processLoop cfg ext cH lH pfx maxScan ls i skip,
        ¬removableLine cfg ext cH lH pfx x := by
  intro ls
  induction ls with
  | nil =>
    intro i skip _ x hx
    simp [processLoop] at hx
  | cons line rest ih =>
    intro i skip hcov x hx
    have hi : i < maxScan := by simp at hcov; omega
    by_cases hrem : removableLine cfg ext cH lH pfx line
    · rw [processLoop_step_removable cfg ext cH lH pfx maxScan line rest i skip hi hrem] at hx
      exact ih (i + 1) true (by simp at hcov ⊢; omega) x hx
    · by_cases hblank : skip = true ∧ goTrim line = ""
      · obtain ⟨hskip, hbl⟩ := hblank
        subst hskip
        rw [processLoop_step_blankskip cfg ext cH lH pfx maxScan line rest i hi hrem hbl] at hx
        exact ih (i + 1) false (by simp at hcov ⊢; omega) x hx
      · rw [processLoop_step_keep cfg ext cH lH pfx maxScan line rest i skip hi hrem hblank] at hx
        rcases List.mem_cons.mp hx with rfl | hx2
        · exact hrem
        · exact ih (i + 1) false (by simp at hcov ⊢; omega) x hx2

/-- Every kept line comes from the input. -/
theorem processLoop_mem (cfg : Config) (ext cH lH pfx : String) (maxScan : Nat) :
    ∀ (ls : List String) (i : Nat) (skip : Bool),
      ∀ x ∈ processLoop cfg ext cH lH pfx maxScan ls i skip, x ∈ ls := by
  intro ls
  induction ls with
  | nil =>
    intro i skip x hx
    simp [processLoop] at hx
  | cons line rest ih =>
    intro i skip x hx
    by_cases hi : i < maxScan
    · by_cases hrem : removableLine cfg ext cH lH pfx line
      · rw [processLoop_step_removable cfg ext cH lH pfx maxScan line rest i skip hi hrem] at hx
        exact List.mem_cons_of_mem line (ih (i + 1) true x hx)
      · by_cases hblank : skip = true ∧ goTrim line = ""
        · obtain ⟨hskip, hbl⟩ := hblank
          subst hskip
          rw [processLoop_step_blankskip cfg ext cH lH pfx maxScan line rest i hi hrem hbl] at hx
          exact List.mem_cons_of_mem line (ih (i + 1) false x hx)
        · rw [processLoop_step_keep cfg ext cH lH pfx maxScan line rest i skip hi hrem hblank] at hx
          rcases List.mem_cons.mp hx with rfl | hx2
          · exact List.mem_cons_self x rest
          · exact List.mem_cons_of_mem line (ih (i + 1) false x hx2)
    · rw [processLoop_step_out cfg ext cH lH pfx maxScan line rest i skip hi] at hx
      rcases List.mem_cons.mp hx with rfl | hx2
      · exact List.mem_cons_self x rest
      · exact List.mem_cons_of_mem line (ih (i + 1) false x hx2)

/-- On all-clean input with `skipNext` off, the loop is the identity. -/
theorem processLoop_id_of_clean (cfg : Config) (ext cH lH pfx : String) (maxScan : Nat) :
    ∀ (ls : List String) (i : Nat), (∀ x ∈ ls, ¬removableLine cfg ext cH lH pfx x) →
      processLoop cfg ext cH lH pfx maxScan ls i false = ls := by
  intro ls
  induction ls with
  | nil => intro i _; rfl
  | cons line rest ih =>
    intro i hclean
    have hrem : ¬removableLine cfg ext cH lH pfx line := hclean line (by simp)
    by_cases hi : i < maxScan
    · rw [processLoop_step_keep cfg ext cH lH pfx maxScan line rest i false hi hrem
        (by intro hand; exact absurd hand.1 (by simp))]
      rw [ih (i + 1) (fun x hx => hclean x (by simp [hx]))]
    · rw [processLoop_step_out cfg ext cH lH pfx maxScan line rest i false hi]
      rw [ih (i + 1) (fun x hx => hclean x (by simp [hx]))]

/-- The second run's body loop consumes the header block and keeps the
already-clean body. -/
theorem processLoop_header_consume (cfg : Config) (ext cH lH pfx : String)
    (maxScan : Nat) (body : List String) (i : Nat)
    (hremC : removableLine cfg ext cH lH pfx cH)
    (hremL : removableLine cfg ext cH lH pfx lH)
    (hremB : ¬removableLine cfg ext cH lH pfx "")
    (hclean : ∀ x ∈ body, ¬removableLine cfg ext cH lH pfx x)
    (hwin : i + 2 < maxScan) :
    processLoop cfg ext cH lH pfx maxScan (cH :: lH :: "" :: body) i false = body := by
  rw [processLoop_step_removable cfg ext cH lH pfx maxScan cH _ i false (by omega) hremC]
  rw [processLoop_step_removable cfg ext cH lH pfx maxScan lH _ (i + 1) true (by omega) hremL]
  rw [processLoop_step_blankskip cfg ext cH lH pfx maxScan "" body (i + 2) (by omega) hremB
    (by decide)]
  exact processLoop_id_of_clean cfg ext cH lH pfx maxScan body (i + 3) hclean

/-- Splitting never yields an empty line list. -/
theorem goSplitLines_length_pos (s : String) : 0 < (goSplitLines s).length := by
  unfold goSplitLines
  rw [List.length_map]
  exact List.length_pos.mpr (splitCh_ne_nil '\n' s.data)

/-- The scan start after the shebang step. -/
def shebangStart (lines : List String) : Nat := if hasShebang lines then 1 else 0

/-- The lines kept in front of the rebuilt header (the shebang line). -/
def shebangPre (lines : List String) : List String :=
  if hasShebang lines then [lines.getD 0 ""] else []

/-- The body `ProcessContent` keeps below the rebuilt header. -/
def replaceBody (cfg : Config) (ext cH lH : String) (lines : List String) : List String :=
  processLoop cfg ext cH lH (commentPrefixFor cfg ext)
    (scanLimit cfg (shebangStart lines) lines.length)
    (lines.drop (shebangStart lines)) (shebangStart lines) false

/-- `ProcessContent`'s trailing-newline restoration. -/
def newlineFixup (content out : String) : String :=
  if goHasSuffix content "\n" ∧ ¬goHasSuffix out "\n" then out ++ "\n" else out

theorem newlineFixup_self (x : String) : newlineFixup x x = x := by
  unfold newlineFixup
  split
  · next h => exact absurd h.1 h.2
  · rfl

/-- `ProcessContent` in closed form, on the third-party actions other than
`above`/`below` and with the license line enabled. -/
theorem processContent_replace_eq (cfg : Config) (content ext cH lH : String)
    (hskip : cfg.Detection.SkipGenerated = false)
    (hcH : GetCopyrightHeader cfg ext = some cH)
    (hlH : GetLicenseHeader cfg ext = some lH)
    (hact : cfg.ThirdParty.Action ≠ "above" ∧ cfg.ThirdParty.Action ≠ "below")
    (hlne : lH ≠ "") :
    ProcessContent cfg content ext =
      some (newlineFixup content (goJoinLines (shebangPre (goSplitLines content) ++
        (cH :: lH :: "" :: replaceBody cfg ext cH lH (goSplitLines content))))) := by
  have hlen : ¬((goSplitLines content).length = 0 ∨
      IsGenerated cfg (goSplitLines content) = true) := by
    rintro (h | h)
    · exact absurd h (Nat.pos_iff_ne_zero.mp (goSplitLines_length_pos content))
    · rw [isGenerated_false_of cfg _ hskip] at h
      exact Bool.false_ne_true h
  simp only [ProcessContent, hcH, hlH]
  rw [if_neg hlen, if_neg hact.1, if_neg hact.2, if_pos hlne]
  unfold newlineFixup shebangPre replaceBody shebangStart
  simp [List.append_assoc]

/-- A rebuilt output — shebang line, canonical header block, clean body,
optional restored trailing blank — is a fixed point of `ProcessContent`. -/
theorem processContent_fixed_point (cfg : Config) (ext cH lH : String)
    (hskip : cfg.Detection.SkipGenerated = false)
    (hcH : GetCopyrightHeader cfg ext = some cH)
    (hlH : GetLicenseHeader cfg ext = some lH)
    (hact : cfg.ThirdParty.Action ≠ "above" ∧ cfg.ThirdParty.Action ≠ "below")
    (hlne : lH ≠ "")
    (hnlC : '\n' ∉ cH.data) (hnlL : '\n' ∉ lH.data)
    (hshe : goHasPrefix cH "#!" = false)
    (hremB : ¬removableLine cfg ext cH lH (commentPrefixFor cfg ext) "")
    (hmsl : cfg.Detection.MaxScanLines ≤ 0 ∨ 3 ≤ cfg.Detection.MaxScanLines)
    (pre body t : List String)
    (hpre : pre = [] ∨ ∃ y, pre = [y] ∧ goHasPrefix y "#!" = true)
    (hprefree : ∀ x ∈ pre, '\n' ∉ x.data)
    (hbodyclean : ∀ x ∈ body, ¬removableLine cfg ext cH lH (commentPrefixFor cfg ext) x)
    (hbodyfree : ∀ x ∈ body, '\n' ∉ x.data)
    (ht : t = [] ∨ t = [""])
    (out : String)
    (hout : out = goJoinLines (pre ++ (cH :: lH :: "" :: (body ++ t)))) :
    ProcessContent cfg out ext = some out := by
  have hAfree : ∀ x ∈ pre ++ (cH :: lH :: "" :: (body ++ t)), '\n' ∉ x.data := by
    intro x hx
    rcases List.mem_append.mp hx with hx | hx
    · exact hprefree x hx
    · simp only [List.mem_cons] at hx
      rcases hx with rfl | rfl | rfl | hx
      · exact hnlC
      · exact hnlL
      · decide
      · rcases List.mem_append.mp hx with hx | hx
        · exact hbodyfree x hx
        · rcases ht with rfl | rfl
          · exact absurd hx (List.not_mem_nil x)
          · have hxe : x = "" := by simpa using hx
            subst hxe
            decide
  have hsplit : goSplitLines out = pre ++ (cH :: lH :: "" :: (body ++ t)) := by
    rw [hout]
    exact goSplitLines_goJoinLines _ (by simp) hAfree
  have hshe2 : shebangPre (goSplitLines out) = pre ∧
      shebangStart (goSplitLines out) = pre.length := by
    rw [hsplit]
    rcases hpre with rfl | ⟨y, rfl, hy⟩
    · rw [List.nil_append]
      constructor
      · unfold shebangPre
        rw [if_neg (by simp [hasShebang, hshe])]
      · unfold shebangStart
        rw [if_neg (by simp [hasShebang, hshe])]
        rfl
    · rw [List.singleton_append]
      constructor
      · unfold shebangPre
        rw [if_pos (by simp [hasShebang, hy])]
        rfl
      · unfold shebangStart
        rw [if_pos (by simp [hasShebang, hy])]
        rfl
  have hdrop : (goSplitLines out).drop (shebangStart (goSplitLines out)) =
      cH :: lH :: "" :: (body ++ t) := by
    rw [hshe2.2, hsplit, List.drop_left]
  have hlen2 : (goSplitLines out).length = pre.length + (3 + (body.length + t.length)) := by
    rw [hsplit]
    simp only [List.length_append, List.length_cons]
    omega
  have hmax2 : shebangStart (goSplitLines out) + 2 <
      scanLimit cfg (shebangStart (goSplitLines out)) (goSplitLines out).length := by
    rw [hshe2.2, hlen2]
    unfold scanLimit
    rcases hmsl with hm | hm
    · rw [if_neg (by omega)]
      omega
    · rw [if_pos (by omega)]
      exact lt_min (by omega) (by omega)
  have hbody2 : replaceBody cfg ext cH lH (goSplitLines out) = body ++ t := by
    unfold replaceBody
    rw [hdrop]
    exact processLoop_header_consume cfg ext cH lH (commentPrefixFor cfg ext) _ (body ++ t) _
      (by unfold removableLine; exact Or.inl (Or.inl rfl))
      (by unfold removableLine; exact Or.inl (Or.inr ⟨hlne, rfl⟩))
      hremB
      (by
        intro x hx
        rcases List.mem_append.mp hx with hx | hx
        · exact hbodyclean x hx
        · rcases ht with rfl | rfl
          · exact absurd hx (List.not_mem_nil x)
          · have hxe : x = "" := by simpa using hx
            subst hxe
            exact hremB)
      hmax2
  rw [processContent_replace_eq cfg out ext cH lH hskip hcH hlH hact hlne, hshe2.1, hbody2,
    ← hout, newlineFixup_self]

/-- Idempotence core: when the scan window of the first run covers the whole
file, `ProcessContent`'s output is a fixed point. -/
theorem processContent_idempotent_core (cfg : Config) (content ext cH lH : String)
    (hskip : cfg.Detection.SkipGenerated = false)
    (hcH : GetCopyrightHeader cfg ext = some cH)
    (hlH : GetLicenseHeader cfg ext = some lH)
    (hact : cfg.ThirdParty.Action ≠ "above" ∧ cfg.ThirdParty.Action ≠ "below")
    (hlne : lH ≠ "")
    (hnlC : '\n' ∉ cH.data) (hnlL : '\n' ∉ lH.data)
    (hshe : goHasPrefix cH "#!" = false)
    (hremB : ¬removableLine cfg ext cH lH (commentPrefixFor cfg ext) "")
    (hmsl : cfg.Detection.MaxScanLines ≤ 0 ∨ 3 ≤ cfg.Detection.MaxScanLines)
    (hwin : scanLimit cfg (shebangStart (goSplitLines content))
        (goSplitLines content).length = (goSplitLines content).length)
    (out : String) (hout : ProcessContent cfg content ext = some out) :
    ProcessContent cfg out ext = some out := by
  rw [processContent_replace_eq cfg content ext cH lH hskip hcH hlH hact hlne] at hout
  have hoeq : newlineFixup content (goJoinLines (shebangPre (goSplitLines content) ++
      (cH :: lH :: "" :: replaceBody cfg ext cH lH (goSplitLines content)))) = out :=
    Option.some.inj hout
  have hlenpos := goSplitLines_length_pos content
  have hsle : shebangStart (goSplitLines content) ≤ 1 := by
    unfold shebangStart
    split <;> omega
  have hbodyclean : ∀ x ∈ replaceBody cfg ext cH lH (goSplitLines content),
      ¬removableLine cfg ext cH lH (commentPrefixFor cfg ext) x := by
    intro x hx
    unfold replaceBody at hx
    exact processLoop_clean cfg ext cH lH (commentPrefixFor cfg ext) _ _ _ _
      (by rw [hwin, List.length_drop]; omega) x hx
  have hbodymem : ∀ x ∈ replaceBody cfg ext cH lH (goSplitLines content),
      x ∈ goSplitLines content := by
    intro x hx
    unfold replaceBody at hx
    exact List.mem_of_mem_drop (processLoop_mem cfg ext cH lH _ _ _ _ _ x hx)
  have hbodyfree : ∀ x ∈ replaceBody cfg ext cH lH (goSplitLines content),
      '\n' ∉ x.data :=
    fun x hx => goSplitLines_no_newline content x (hbodymem x hx)
  have hpre : shebangPre (goSplitLines content) = [] ∨
      ∃ y, shebangPre (goSplitLines content) = [y] ∧ goHasPrefix y "#!" = true := by
    unfold shebangPre
    by_cases h : hasShebang (goSplitLines content) = true
    · right
      refine ⟨(goSplitLines content).getD 0 "", by rw [if_pos h], ?_⟩
      cases hLs : goSplitLines content with
      | nil => rw [hLs] at h; exact absurd h (by simp [hasShebang])
      | cons a as => rw [hLs] at h; simpa [List.getD] using h
    · left
      rw [if_neg h]
  have hprefree : ∀ x ∈ shebangPre (goSplitLines content), '\n' ∉ x.data := by
    intro x hx
    unfold shebangPre at hx
    split at hx
    · have hxe : x = (goSplitLines content).getD 0 "" := by simpa using hx
      subst hxe
      apply goSplitLines_no_newline content
      cases hLs : goSplitLines content with
      | nil => exact absurd hLs (List.length_pos.mp hlenpos)
      | cons a as => simp [List.getD]
    · exact absurd hx (List.not_mem_nil x)
  set B := replaceBody cfg ext cH lH (goSplitLines content) with hB
  set P := shebangPre (goSplitLines content) with hP
  by_cases hcond : goHasSuffix content "\n" = true ∧
      ¬goHasSuffix (goJoinLines (P ++ (cH :: lH :: "" :: B))) "\n" = true
  · have hout2 : out = goJoinLines (P ++ (cH :: lH :: "" :: (B ++ [""]))) := by
      rw [← hoeq]
      unfold newlineFixup
      rw [if_pos hcond, goJoinLines_append_newline _ (by simp)]
      congr 1
      simp
    exact processContent_fixed_point cfg ext cH lH hskip hcH hlH hact hlne hnlC hnlL hshe
      hremB hmsl P B [""] hpre hprefree hbodyclean hbodyfree (Or.inr rfl) out hout2
  · have hout2 : out = goJoinLines (P ++ (cH :: lH :: "" :: (B ++ []))) := by
      rw [← hoeq]
      unfold newlineFixup
      rw [if_neg hcond]
      simp
    exact processContent_fixed_point cfg ext cH lH hskip hcH hlH hact hlne hnlC hnlL hshe
      hremB hmsl P B [] hpre hprefree hbodyclean hbodyfree (Or.inl rfl) out hout2

set_option maxRecDepth 100000 in
/-- C1 (amended): for the fuzz-test configurations of `.go`, `.sh` and `.py`,
`ProcessContent` is idempotent on every input whose scan window covers the
whole file (line count at most the shebang offset plus `max_scan_lines`):
whatever the first run produces, a second run returns it unchanged.  The
unrestricted claim is refuted by the separate counterexample. -/
theorem processContent_idempotent_of_window (ext : String)
    (hext : ext = ".go" ∨ ext = ".sh" ∨ ext = ".py")
    (content out : String)
    (hwin : scanLimit (createConfigForExtension ext)
        (shebangStart (goSplitLines content)) (goSplitLines content).length =
        (goSplitLines content).length)
    (hout : ProcessContent (createConfigForExtension ext) content ext = some out) :
    ProcessContent (createConfigForExtension ext) out ext = some out := by
  rcases hext with rfl | rfl | rfl
  · exact processContent_idempotent_core (createConfigForExtension ".go") content ".go"
      "// Copyright Dirk Avery 2025" "// SPDX-License-Identifier: MIT"
      rfl (by decide) (by decide) (by decide) (by decide) (by decide) (by decide)
      (by decide) (by decide) (by decide) hwin out hout
  · exact processContent_idempotent_core (createConfigForExtension ".sh") content ".sh"
      "# Copyright Dirk Avery 2025" "# SPDX-License-Identifier: MIT"
      rfl (by decide) (by decide) (by decide) (by decide) (by decide) (by decide)
      (by decide) (by decide) (by decide) hwin out hout
  · exact processContent_idempotent_core (createConfigForExtension ".py") content ".py"
      "# Copyright Dirk Avery 2025" "# SPDX-License-Identifier: MIT"
      rfl (by decide) (by decide) (by decide) (by decide) (by decide) (by decide)
      (by decide) (by decide) (by decide) hwin out hout

set_option maxRecDepth 100000 in
/-- Witness for C1 (amended) at a concrete input: two lines, window 20 covers
them, and the first run's output is a fixed point. -/
theorem processContent_idempotent_of_window_witness :
    ProcessContent (createConfigForExtension ".go")
      "// Copyright Dirk Avery 2025\n// SPDX-License-Identifier: MIT\n\npackage main\n"
      ".go" =
    some "// Copyright Dirk Avery 2025\n// SPDX-License-Identifier: MIT\n\npackage main\n" :=
  processContent_idempotent_of_window ".go" (Or.inl rfl) "package main\n" _
    (by decide) (by decide)

end Copyplop
